import Mathlib

/-!
Shallow embedding of the AMA Archive document ingestion / hierarchical
storage subsystem (backend `index.js` and the newer backend copy shipped
alongside `Search.jsx`): name sanitisation, stored-file-name derivation,
hierarchy placement, upload normalisation, image-to-PDF merging, the PATCH
relocation handler with its save rollback, the DELETE handler and its
empty-directory pruning.

Strings are embedded as `List Char`; filesystem paths as lists of segments
(`List (List Char)`), each segment a slash-free string.  JavaScript
`String.prototype.normalize('NFKD')` is a platform builtin (no source in
the repository): it is threaded through the definitions as an explicit
function parameter `nrm`, and theorems that need it assume only
`NfkdFaithful nrm` — that the normalisation fixes every all-ASCII string —
which is true of Unicode NFKD.  Timestamps (`Date.now()`) are passed in as
a `now : Nat` parameter.
-/

deriving instance DecidableEq for Except

namespace AMA

/-! ## Characters and JavaScript string helpers -/

/-- ASCII letters and digits: the allow-list of `sanitizeNameSegment`
(`index.js` uses the character class `[^a-zA-Z0-9]`). -/
def isAsciiAlnum (c : Char) : Bool :=
  (48 ≤ c.toNat && c.toNat ≤ 57) ||
  (65 ≤ c.toNat && c.toNat ≤ 90) ||
  (97 ≤ c.toNat && c.toNat ≤ 122)

/-- Combining marks U+0300–U+036F, stripped after NFKD normalisation. -/
def isMark (c : Char) : Bool := 768 ≤ c.toNat && c.toNat ≤ 879

/-- The characters a sanitised segment may contain. -/
def sanOutChar (c : Char) : Bool := isAsciiAlnum c || c = '-'

def isDigitCh (c : Char) : Bool := 48 ≤ c.toNat && c.toNat ≤ 57

/-- The ASCII whitespace `String.prototype.trim` removes. -/
def isJsWs (c : Char) : Bool :=
  c = ' ' || c = '\t' || c = '\n' || c = '\r' || c.toNat = 11 || c.toNat = 12

/-- `String.prototype.trim`. -/
def jsTrim (l : List Char) : List Char :=
  ((l.dropWhile isJsWs).reverse.dropWhile isJsWs).reverse

/-- Decimal digits of a natural number, most significant first (fuelled so
that the kernel can evaluate it): `String(n)` for a non-negative integer. -/
def natCharsGo : Nat → Nat → List Char → List Char
  | 0, _, acc => acc
  | fuel + 1, n, acc =>
    let d := Char.ofNat (48 + n % 10)
    if n < 10 then d :: acc else natCharsGo fuel (n / 10) (d :: acc)

def natChars (n : Nat) : List Char := natCharsGo (n + 1) n []

/-- JavaScript `a || b` for strings: `a` unless it is empty. -/
def orNE (a b : List Char) : List Char := if a = [] then b else a

/-- JavaScript `a || b` where `a` is an optional string (`undefined` or a
possibly empty string is falsy). -/
def jsOrStr (a : Option (List Char)) (b : List Char) : List Char :=
  match a with
  | none => b
  | some h => if h = [] then b else h

/-! ## Name Sanitizer (`sanitizeNameSegment`, index.js lines 154–167) -/

/-- `.replace(/[̀-ͯ]/g, '')`. -/
def stripMarks (l : List Char) : List Char := l.filter (fun c => !isMark c)

/-- `.replace(/[^a-zA-Z0-9]+/g, '-')`: each maximal run of characters
outside the allow-list becomes a single `-`.  The flag records whether the
previous character belonged to a run already replaced. -/
def replRuns : Bool → List Char → List Char
  | _, [] => []
  | inRun, c :: cs =>
    if isAsciiAlnum c then c :: replRuns false cs
    else if inRun then replRuns true cs
    else '-' :: replRuns true cs

/-- The `-+` → `-` replacement step: collapse runs of hyphens.  The flag
records whether the previous kept character was a hyphen. -/
def collapseHy : Bool → List Char → List Char
  | _, [] => []
  | prev, c :: cs =>
    if c = '-' then
      (if prev then collapseHy true cs else '-' :: collapseHy true cs)
    else c :: collapseHy false cs

/-- `.replace(/^-|-$/g, '')` removes one leading hyphen … -/
def trimLead : List Char → List Char
  | '-' :: t => t
  | l => l

/-- … and one trailing hyphen. -/
def trimTrail (l : List Char) : List Char := (trimLead l.reverse).reverse

/-- The normalisation pipeline of `sanitizeNameSegment` applied to a
non-empty input string (`nrm` stands for `.normalize('NFKD')`). -/
def sanCore (nrm : List Char → List Char) (v : List Char) : List Char :=
  trimTrail (trimLead (collapseHy false (replRuns false (stripMarks (nrm v)))))

/-- `sanitizeNameSegment(value, { fallback })` (index.js 154–167): returns
the fallback on an undefined/empty input or when the pipeline erases
everything. -/
def sanitizeNameSegment (nrm : List Char → List Char)
    (value : Option (List Char)) (fb : List Char) : List Char :=
  match value with
  | none => fb
  | some v =>
    if v = [] then fb
    else
      let n := sanCore nrm v
      if n = [] then fb else n

/-- `sanitizeDirectoryName` (index.js 169–170). -/
def sanitizeDirectoryName (nrm : List Char → List Char)
    (value : Option (List Char)) (fb : List Char := ("unknown").data) : List Char :=
  sanitizeNameSegment nrm value fb

/-- `sanitizeFileBaseName` (index.js 172–173). -/
def sanitizeFileBaseName (nrm : List Char → List Char)
    (value : Option (List Char)) (fb : List Char := ("document").data) : List Char :=
  sanitizeNameSegment nrm value fb

/-- No two adjacent hyphens. -/
def NoDH (l : List Char) : Prop := l.Chain' (fun a b => ¬(a = '-' ∧ b = '-'))

/-- The first character, if any, is not a hyphen. -/
def headOk : List Char → Prop
  | [] => True
  | c :: _ => c ≠ '-'

/-- The first character, if any, is an ASCII letter or digit. -/
def headAl : List Char → Prop
  | [] => True
  | c :: _ => isAsciiAlnum c = true

/-- The shape of every sanitised segment: only allow-list characters, no
double hyphen, no leading or trailing hyphen. -/
def SanForm (l : List Char) : Prop :=
  (∀ c ∈ l, sanOutChar c = true) ∧ NoDH l ∧ headOk l ∧ headOk l.reverse

/-- What the embedding assumes about the platform's NFKD normalisation:
it fixes every all-ASCII string (true of Unicode NFKD: ASCII code points
have no decomposition). -/
def NfkdFaithful (nrm : List Char → List Char) : Prop :=
  ∀ l : List Char, (∀ c ∈ l, c.toNat < 128) → nrm l = l

/-- The identity function: a faithful stand-in for NFKD on ASCII data,
used to evaluate the definitions on concrete inputs. -/
def idChars : List Char → List Char := fun l => l

/-! ## Stored-file-name derivation (`deriveStoredFileName`, index.js 175–215) -/

/-- `ensureTimestampPrefix` (index.js 182–198): the part of the current
stored name before its first `-` when that is at a positive index, else its
leading run of digits, else a fresh timestamp (`String(Date.now())`,
passed in as `now`). -/
def ensureTsPre (now : Nat) (value : Option (List Char)) : List Char :=
  match value with
  | none => natChars now
  | some v =>
    if jsTrim v = [] then natChars now
    else
      let pre := v.takeWhile (fun c => c ≠ '-')
      if 0 < pre.length ∧ pre.length < v.length then pre
      else
        let d := v.takeWhile isDigitCh
        if d = [] then natChars now else d

/-- Node's `path.extname` on a basename (no slashes, trailing slashes
already stripped): the suffix from the last `.`, empty when there is no
dot, when the only dot is the leading character, or for `..`. -/
def extnameCore (b : List Char) : List Char :=
  if b = ['.', '.'] then []
  else
    let sufR := b.reverse.takeWhile (fun c => c ≠ '.')
    if sufR.length = b.length then []
    else if sufR.length + 1 = b.length then []
    else '.' :: sufR.reverse

/-- Node's `path.extname` on a path string. -/
def extname (p : List Char) : List Char :=
  extnameCore ((p.reverse.dropWhile (fun c => c = '/')).takeWhile (fun c => c ≠ '/')).reverse

/-- Node's `path.parse(p).name`: the basename without its extension. -/
def parseNameOf (p : List Char) : List Char :=
  let b := ((p.reverse.dropWhile (fun c => c = '/')).takeWhile (fun c => c ≠ '/')).reverse
  b.take (b.length - (extnameCore b).length)

/-- `deriveStoredFileName` (index.js 175–215).  `cur` is
`currentStoredName`, `fp` the `fallbackPath`, `y` the (numeric) year. -/
def deriveStoredFileName (nrm : List Char → List Char) (now : Nat)
    (cur : Option (List Char)) (m mo : Option (List Char)) (y : Option Nat)
    (fp : Option (List Char)) : List Char :=
  let ext := orNE (extname (cur.getD [])) (orNE (extname (fp.getD [])) [])
  let pre := ensureTsPre now cur
  let segs :=
    ([sanitizeFileBaseName nrm m (("merchant").data),
      sanitizeFileBaseName nrm mo (("month").data),
      sanitizeFileBaseName nrm
        (match y with
         | some n => some (natChars n)
         | none => some []) (("year").data)]).filter (fun s => s ≠ [])
  let joined := List.intercalate ['-'] segs
  let base := orNE joined (sanitizeFileBaseName nrm (some (parseNameOf (cur.getD []))) (("document").data))
  pre ++ '-' :: (base ++ ext)

/-! ## Paths and the filesystem model

An absolute path is a list of slash-free segments.  File contents are
either an abstract blob identity or a generated PDF carrying its page
list (page sizes in hundredths of a PostScript point, so that the
`595.28 × 841.89` pt A4 default is exact).  `locked` models paths whose
removal the operating system refuses (e.g. permissions): `unlink` on them
fails with a non-`ENOENT` error. -/

abbrev Seg := List Char

abbrev FsPath := List Seg

/-- `path.join('/')` of the segments: the string form of a path. -/
def joinPath (p : FsPath) : List Char := List.intercalate ['/'] p

def ddSeg : Seg := ['.', '.']

def dotSeg : Seg := ['.']

/-- Node's `path.relative(f, t)` for two resolved absolute paths:
strip the common prefix, one `..` per remaining segment of `f`, then the
remaining segments of `t`. -/
def relativePath : FsPath → FsPath → FsPath
  | [], t => t
  | a :: f, [] => List.replicate (a :: f).length ddSeg
  | a :: f, b :: t =>
    if a = b then relativePath f t
    else List.replicate ((a : Seg) :: f).length ddSeg ++ (b :: t)

/-- Node's `path.resolve(base, rel)` for an absolute `base`: append the
relative segments, `..` popping one segment, `.` a no-op. -/
def resolvePath (base : FsPath) (rel : FsPath) : FsPath :=
  rel.foldl
    (fun acc s => if s = ddSeg then acc.dropLast else if s = dotSeg then acc else acc ++ [s])
    base

/-- `path.basename`: the last segment. -/
def lastSeg (p : FsPath) : Seg := p.getLastD []

/-- A path segment that resolution keeps verbatim. -/
def GoodSeg (s : Seg) : Prop := s ≠ [] ∧ s ≠ ddSeg ∧ s ≠ dotSeg

inductive FData where
  | blob (id : Nat)
  | pdfDoc (pages : List (Nat × Nat))
deriving DecidableEq

structure Fs where
  files : List (FsPath × FData)
  dirs : List FsPath
  locked : List FsPath
deriving DecidableEq

def lookupF (fs : Fs) (p : FsPath) : Option FData :=
  (fs.files.find? (fun e => decide (e.1 = p))).map (fun e => e.2)

def rmF (fs : Fs) (p : FsPath) : Fs :=
  { fs with files := fs.files.filter (fun e => !decide (e.1 = p)) }

/-- Create or overwrite the file at `p`. -/
def addF (fs : Fs) (p : FsPath) (d : FData) : Fs :=
  { fs with files := (p, d) :: (rmF fs p).files }

/-- `fs.promises.mkdir(p, { recursive: true })`: create `p` and every
missing ancestor. -/
def mkdirp (fs : Fs) (p : FsPath) : Fs :=
  { fs with dirs := p.inits.filter (fun q => q ≠ []) ++ fs.dirs }

def rmDir (fs : Fs) (p : FsPath) : Fs :=
  { fs with dirs := fs.dirs.filter (fun q => !decide (q = p)) }

/-- `fs.promises.rename(src, dst)`: fails when the source is missing,
overwrites any file at the destination. -/
def renameF (fs : Fs) (src dst : FsPath) : Option Fs :=
  match lookupF fs src with
  | none => none
  | some c => some (addF (rmF fs src) dst c)

/-- The immediate children (files and directories) of `d`: what
`fs.promises.readdir` lists. -/
def dirEntries (fs : Fs) (d : FsPath) : List FsPath :=
  (fs.files.map (fun e => e.1) ++ fs.dirs).filter
    (fun q => decide (q.length = d.length + 1) && decide (q.take d.length = d))

/-! ## Uploaded files, errors, hierarchy placement -/

/-- A multer file descriptor: `{ path, originalname, filename, mimetype,
size }`. -/
structure UpFile where
  path : FsPath
  originalname : List Char
  filename : List Char
  mimetype : List Char
  size : Nat
deriving DecidableEq

/-- The error kinds the embedded operations surface. -/
inductive CoreErr where
  | invalidYear
  | renameFailed
  | mixedBatch
  | invalidInput
  | imgOpen (p : FsPath)
  | streamWrite
  | unlinkDenied
  | saveFailed
deriving DecidableEq

def isImageMimeType (m : List Char) : Bool := ("image/").data.isPrefixOf m

/-- `moveDocumentToHierarchy` (index.js 313–336): build
`<uploadsDir>/<year>/<merchant>/<month>`, create it, and move the file
there keeping its basename.  A no-op when source and destination are
equal. -/
def moveDocumentToHierarchy (nrm : List Char → List Char) (ud : FsPath)
    (fs : Fs) (filePath : FsPath) (y : Nat) (m mo : Option (List Char)) :
    Fs × Except CoreErr FsPath :=
  let ys := jsTrim ((natChars y).filter isDigitCh)
  if ys = [] then (fs, .error .invalidYear)
  else
    let target := ud ++ [ys, sanitizeDirectoryName nrm m (("merchant").data),
      sanitizeDirectoryName nrm mo (("month").data)]
    let fs1 := mkdirp fs target
    let dest := target ++ [lastSeg filePath]
    if dest = filePath then (fs1, .ok dest)
    else
      match renameF fs1 filePath dest with
      | some fs2 => (fs2, .ok dest)
      | none => (fs1, .error .renameFailed)

/-- `cleanupUploadedFiles` (index.js 93–101): best-effort unlink of each
file, errors swallowed. -/
def cleanupUploadedFiles (fs : Fs) (files : List UpFile) : Fs :=
  files.foldl
    (fun acc f =>
      if f.path ∈ acc.locked then acc
      else if (lookupF acc f.path).isSome then rmF acc f.path else acc)
    fs

/-! ## Image-to-PDF merging (`createPdfFromImages`, index.js 219–287) -/

/-- What `pdfDocument.openImage` reports: the three places the code looks
for each pixel dimension (`image.width`, `image.originalWidth`,
`image.size?.width`, and the same for heights), in hundredths of a point.
`none` models `undefined`; `some 0` is falsy in JavaScript too. -/
structure ImgInfo where
  width : Option Nat
  originalWidth : Option Nat
  sizeWidth : Option Nat
  height : Option Nat
  originalHeight : Option Nat
  sizeHeight : Option Nat
deriving DecidableEq

/-- The environment the merger runs against: opening an image may fail
(a bad or unreadable file), and the output write stream may fail. -/
structure PdfEnv where
  openImage : FsPath → Except CoreErr ImgInfo
  streamOk : Bool

/-- JavaScript `a || b` on an optional number (`undefined`, `null` and `0`
are falsy). -/
def jsFalsyOr (a : Option Nat) (b : Nat) : Nat :=
  match a with
  | none => b
  | some n => if n = 0 then b else n

/-- `image.width || image.originalWidth || image.size?.width || 595.28`
(in hundredths of a point). -/
def resolveW (i : ImgInfo) : Nat :=
  jsFalsyOr i.width (jsFalsyOr i.originalWidth (jsFalsyOr i.sizeWidth 59528))

/-- `… || 841.89` for the height. -/
def resolveH (i : ImgInfo) : Nat :=
  jsFalsyOr i.height (jsFalsyOr i.originalHeight (jsFalsyOr i.sizeHeight 84189))

/-- The page-writing loop (index.js 251–259): one page per image, sized to
that image's dimensions, stopping at the first failure. -/
def buildPages (env : PdfEnv) : List UpFile → Except CoreErr (List (Nat × Nat))
  | [] => .ok []
  | f :: rest =>
    match env.openImage f.path with
    | .error e => .error e
    | .ok i =>
      match buildPages env rest with
      | .error e => .error e
      | .ok ps => .ok ((resolveW i, resolveH i) :: ps)

/-- The sanitised base name of the merged PDF: from the name hint when
given and non-empty, else from the first image's original name. -/
def mergedBaseName (nrm : List Char → List Char) (files : List UpFile)
    (nameHint : Option (List Char)) : List Char :=
  sanitizeFileBaseName nrm
    (some (jsOrStr nameHint (parseNameOf (((files.head?).map (fun f => f.originalname)).getD []))))
    (("document").data)

/-- The output path `<uploadsDir>/<now>-<base>.pdf`. -/
def mergedPdfPath (nrm : List Char → List Char) (ud : FsPath) (now : Nat)
    (files : List UpFile) (nameHint : Option (List Char)) : FsPath :=
  ud ++ [natChars now ++ '-' :: (mergedBaseName nrm files nameHint ++ (".pdf").data)]

/-- `createPdfFromImages` (index.js 219–287): refuses an empty batch,
creates the output file (the write stream truncates on open), writes one
page per image, and on any failure unlinks the partial output
(best-effort) before propagating the original error.  The returned
descriptor's `size` abstracts `stats.size` as the page count. -/
def createPdfFromImages (nrm : List Char → List Char) (ud : FsPath) (now : Nat)
    (env : PdfEnv) (fs : Fs) (files : List UpFile) (nameHint : Option (List Char)) :
    Fs × Except CoreErr UpFile :=
  if files = [] then (fs, .error .invalidInput)
  else
    let base := mergedBaseName nrm files nameHint
    let uniqueName := natChars now ++ '-' :: (base ++ (".pdf").data)
    let pdfPath := ud ++ [uniqueName]
    let fsOpen := addF fs pdfPath (FData.pdfDoc [])
    let clean := fun (f : Fs) => if pdfPath ∈ f.locked then f else rmF f pdfPath
    match buildPages env files with
    | .error e => (clean fsOpen, .error e)
    | .ok ps =>
      if env.streamOk then
        (addF fsOpen pdfPath (FData.pdfDoc ps),
         .ok { path := pdfPath, originalname := base ++ (".pdf").data,
               filename := uniqueName, mimetype := ("application/pdf").data,
               size := ps.length })
      else (clean fsOpen, .error .streamWrite)

/-- `normaliseUploadedFiles` (index.js 289–311): merge an all-image batch
into one PDF (then best-effort delete the originals), reject a mixed
batch before touching anything, pass a no-image batch through. -/
def normaliseUploadedFiles (nrm : List Char → List Char) (ud : FsPath)
    (now : Nat) (env : PdfEnv) (fs : Fs) (files : List UpFile)
    (nameHint : Option (List Char)) :
    Fs × Except CoreErr (List UpFile × List UpFile) :=
  if files = [] then (fs, .ok ([], []))
  else if files.all (fun f => isImageMimeType f.mimetype) then
    match createPdfFromImages nrm ud now env fs files nameHint with
    | (fs1, .error e) => (fs1, .error e)
    | (fs1, .ok pdf) => (cleanupUploadedFiles fs1 files, .ok ([pdf], [pdf]))
  else if files.any (fun f => isImageMimeType f.mimetype) then
    (fs, .error .mixedBatch)
  else (fs, .ok (files, []))

/-! ## Document records and the ingestion step (POST `/api/documents`) -/

structure DocRec where
  originalName : List Char
  storedName : List Char
  storagePath : FsPath
  mimeType : List Char
  size : Nat
  tags : List (List Char × Int)
  notes : Option (List Char)
  year : Nat
  merchantName : List Char
  month : List Char
deriving DecidableEq

/-- The per-file body of the POST handler's loop (index.js 391–420): move
the file into the hierarchy, then build the record whose `storagePath` is
`path.relative(__dirname, hierarchicalPath)`. -/
def ingestPlaceFile (nrm : List Char → List Char) (dirn ud : FsPath) (fs : Fs)
    (file : UpFile) (y : Nat) (m mo : List Char) (tags : List (List Char × Int))
    (notes : Option (List Char)) : Fs × Except CoreErr DocRec :=
  match moveDocumentToHierarchy nrm ud fs file.path y (some m) (some mo) with
  | (fs1, .error e) => (fs1, .error e)
  | (fs1, .ok hier) =>
    (fs1, .ok
      { originalName := file.originalname
        storedName := file.filename
        storagePath := relativePath dirn hier
        mimeType := file.mimetype
        size := file.size
        tags := tags
        notes := notes
        year := y
        merchantName := m
        month := mo })

/-! ## The PATCH handler (PATCH `/api/documents/:id`, index.js 626–772) -/

/-- The validated PATCH body.  `notes` distinguishes an absent field from
an explicit `null`; for `year`/`merchant`/`month` the handler treats
`undefined` and `null` alike, so one `Option` suffices. -/
structure PatchBody where
  notes : Option (Option (List Char))
  tags : Option (List (List Char × Int))
  year : Option Nat
  merchant : Option (List Char)
  month : Option (List Char)

def nextMerchantOf (d : DocRec) (b : PatchBody) : List Char :=
  match b.merchant with
  | some s => jsTrim s
  | none => d.merchantName

/-- `shouldRelocate` (index.js 672–675). -/
def patchShouldRelocate (d : DocRec) (b : PatchBody) : Bool :=
  decide (b.year.getD d.year ≠ d.year) ||
  decide (nextMerchantOf d b ≠ d.merchantName) ||
  decide (b.month.getD d.month ≠ d.month)

/-- The field mutations (index.js 677–695), in source order. -/
def applyFieldEdits (d : DocRec) (b : PatchBody) : DocRec :=
  let d1 := match b.notes with
    | some v => { d with notes := v }
    | none => d
  let d2 := match b.tags with
    | some ts => { d1 with tags := ts }
    | none => d1
  let d3 := match b.year with
    | some y => { d2 with year := y }
    | none => d2
  let d4 := match b.merchant with
    | some s => { d3 with merchantName := jsTrim s }
    | none => d3
  match b.month with
  | some mo => { d4 with month := mo }
  | none => d4

/-- The server's state as the PATCH handler sees it: the persisted record
(the metadata store) and the filesystem. -/
structure SrvState where
  store : DocRec
  fs : Fs

/-- The save step with rollback (index.js 752–765): on a persistence
failure after a relocation, recreate the original directory and move the
file back, a secondary restoration failure being only logged
(`restoreOk = false` injects such a failure), then propagate the original
error; the store commits only on a successful save. -/
def patchSave (saveOk restoreOk : Bool) (origStore doc2 : DocRec) (fs : Fs)
    (reloc : Option (FsPath × FsPath)) : SrvState × Except CoreErr DocRec :=
  if saveOk then ({ store := doc2, fs := fs }, .ok doc2)
  else
    match reloc with
    | none => ({ store := origStore, fs := fs }, .error .saveFailed)
    | some (origPath, finalPath) =>
      let fs' :=
        if restoreOk then
          let fsm := mkdirp fs origPath.dropLast
          match renameF fsm finalPath origPath with
          | some f2 => f2
          | none => fsm
        else fs
      ({ store := origStore, fs := fs' }, .error .saveFailed)

/-- The PATCH handler (index.js 626–772) for an existing document:
compute the next metadata, mutate the in-memory record, relocate the
backing file when year/merchant/month changed (moving the file, deriving
and applying the new stored name, restoring the original location if a
relocation step fails), then save with rollback on failure. -/
def patchDocument (nrm : List Char → List Char) (dirn ud : FsPath) (now : Nat)
    (saveOk restoreOk : Bool) (st : SrvState) (b : PatchBody) :
    SrvState × Except CoreErr DocRec :=
  let doc0 := st.store
  let origPath := resolvePath dirn doc0.storagePath
  let ny := b.year.getD doc0.year
  let nm := nextMerchantOf doc0 b
  let nmo := b.month.getD doc0.month
  let doc1 := applyFieldEdits doc0 b
  if patchShouldRelocate doc0 b then
    match moveDocumentToHierarchy nrm ud st.fs origPath ny (some nm) (some nmo) with
    | (fs1, .error e) => ({ store := doc0, fs := fs1 }, .error e)
    | (fs1, .ok relocated) =>
      let nextStored := deriveStoredFileName nrm now (some doc1.storedName)
        (some nm) (some nmo) (some ny) (some (joinPath relocated))
      let desired := relocated.dropLast ++ [nextStored]
      if desired = relocated then
        let doc2 := { doc1 with
          storagePath := relativePath dirn relocated
          storedName := nextStored }
        patchSave saveOk restoreOk doc0 doc2 fs1 (some (origPath, relocated))
      else
        match renameF fs1 relocated desired with
        | none =>
          let fsr :=
            if relocated ≠ origPath then
              if restoreOk then
                let fsm := mkdirp fs1 origPath.dropLast
                match renameF fsm relocated origPath with
                | some f2 => f2
                | none => fsm
              else fs1
            else fs1
          ({ store := doc0, fs := fsr }, .error .renameFailed)
        | some fs2 =>
          let doc2 := { doc1 with
            storagePath := relativePath dirn desired
            storedName := nextStored }
          patchSave saveOk restoreOk doc0 doc2 fs2 (some (origPath, desired))
  else patchSave saveOk restoreOk doc0 doc1 st.fs none

/-! ## Deletion and directory pruning (DELETE `/api/documents/:id`,
the backend copy beside `Search.jsx`, lines 737–778 and 1115–1147) -/

/-- `removeFileIfExists` (Search.jsx backend copy 737–747): `true` when a
file was removed, `false` on `ENOENT`, any other unlink failure
propagates. -/
def removeFileIfExists (fs : Fs) (p : FsPath) : Fs × Except CoreErr Bool :=
  match lookupF fs p with
  | none => (fs, .ok false)
  | some _ =>
    if p ∈ fs.locked then (fs, .error .unlinkDenied)
    else (rmF fs p, .ok true)

/-- The loop body of `removeEmptyDirectoriesUpwards` (Search.jsx backend
copy 749–778), fuelled so the kernel can evaluate it: stop at the root,
at any directory not strictly below the root, at a missing directory
(readdir throws), or at a non-empty one; otherwise remove it and climb. -/
def pruneGo : Nat → Fs → FsPath → FsPath → Fs
  | 0, fs, _, _ => fs
  | fuel + 1, fs, root, current =>
    if current = root then fs
    else if ¬ root.isPrefixOf current then fs
    else if current ∉ fs.dirs then fs
    else if dirEntries fs current ≠ [] then fs
    else pruneGo fuel (rmDir fs current) root current.dropLast

def removeEmptyDirectoriesUpwards (fs : Fs) (root dir : FsPath) : Fs :=
  pruneGo (dir.length + 1) fs root dir

/-- What the DELETE handler answers. -/
inductive DelResp where
  | notFound
  | deleted (id : Nat)
deriving DecidableEq

/-- The DELETE handler (Search.jsx backend copy 1115–1147): 404 when the
record is missing; otherwise delete the record, then best-effort remove
the backing file — pruning empty ancestors only when a file was actually
removed — with any cleanup failure only logged. -/
def deleteDocument (dirn ud : FsPath) (db : List (Nat × DocRec)) (fs : Fs)
    (id : Nat) : (List (Nat × DocRec) × Fs) × DelResp :=
  match db.find? (fun e => decide (e.1 = id)) with
  | none => ((db, fs), .notFound)
  | some entry =>
    let doc := entry.2
    let abs := resolvePath dirn doc.storagePath
    let db1 := db.filter (fun e => !decide (e.1 = id))
    match removeFileIfExists fs abs with
    | (fs1, .ok true) =>
      ((db1, removeEmptyDirectoriesUpwards fs1 ud abs.dropLast), .deleted id)
    | (fs1, .ok false) => ((db1, fs1), .deleted id)
    | (fs1, .error _) => ((db1, fs1), .deleted id)

/-! ## Concrete fixtures (for witnesses, counterexamples and scenario
conjuncts) -/

/-- The backend directory (`__dirname`). -/
def backDir : FsPath := [("back").data]

/-- The default storage root `__dirname/uploads`. -/
def upDir : FsPath := backDir ++ [("uploads").data]

def seg2024 : Seg := ("2024").data

def seg2023 : Seg := ("2023").data

def segAcme : Seg := ("Acme").data

def segMarch : Seg := ("March").data

def segApril : Seg := ("April").data

/-- A freshly uploaded PDF at the root of the storage directory. -/
def pdfUpload : UpFile :=
  { path := upDir ++ [("1712-scan.pdf").data]
    originalname := ("scan.pdf").data
    filename := ("1712-scan.pdf").data
    mimetype := ("application/pdf").data
    size := 9 }

def jpgUploadA : UpFile :=
  { path := upDir ++ [("1712-a.jpg").data]
    originalname := ("a.jpg").data
    filename := ("1712-a.jpg").data
    mimetype := ("image/jpeg").data
    size := 4 }

def jpgUploadB : UpFile :=
  { path := upDir ++ [("1713-b.jpg").data]
    originalname := ("b.jpg").data
    filename := ("1713-b.jpg").data
    mimetype := ("image/png").data
    size := 5 }

/-- The filesystem right after the multer stage of scenario uploads. -/
def fsUpload : Fs :=
  { files := [(pdfUpload.path, FData.blob 3), (jpgUploadA.path, FData.blob 4),
      (jpgUploadB.path, FData.blob 5)]
    dirs := [backDir, upDir]
    locked := [] }

/-- An image environment where every image opens with 2×3 pt pages and the
stream succeeds. -/
def envOk : PdfEnv :=
  { openImage := fun _ =>
      .ok { width := some 200, originalWidth := none, sizeWidth := none,
            height := some 300, originalHeight := none, sizeHeight := none }
    streamOk := true }

/-- An environment where the second scenario image fails to open. -/
def envBadB : PdfEnv :=
  { openImage := fun p =>
      if p = jpgUploadB.path then .error (.imgOpen p) else (envOk.openImage p)
    streamOk := true }

/-- The stored document of the relocation scenarios (year 2023). -/
def doc2023 : DocRec :=
  { originalName := ("scan.pdf").data
    storedName := ("1712-Acme-March-2023.pdf").data
    storagePath := [("uploads").data, seg2023, segAcme, segMarch,
      ("1712-Acme-March-2023.pdf").data]
    mimeType := ("application/pdf").data
    size := 3
    tags := []
    notes := none
    year := 2023
    merchantName := segAcme
    month := segMarch }

/-- Its backing file's absolute path. -/
def doc2023Path : FsPath := resolvePath backDir doc2023.storagePath

def fs2023 : Fs :=
  { files := [(doc2023Path, FData.blob 7)]
    dirs := [upDir, doc2023Path.dropLast]
    locked := [] }

/-- The PATCH body that edits the year to 2024. -/
def bodyYear2024 : PatchBody :=
  { notes := none, tags := none, year := some 2024, merchant := none, month := none }

/-- A stored document sitting in `2024/Acme/March` (for deletion
scenarios; `dirn = []`, so `storagePath` is the absolute path). -/
def docMarch : DocRec :=
  { originalName := ("doc.pdf").data
    storedName := ("doc.pdf").data
    storagePath := [("up").data, seg2024, segAcme, segMarch, ("doc.pdf").data]
    mimeType := ("application/pdf").data
    size := 3
    tags := []
    notes := none
    year := 2024
    merchantName := segAcme
    month := segMarch }

def docAprilFile : FsPath := [("up").data, seg2024, segAcme, segApril, ("other.pdf").data]

/-- Storage tree holding only the March document. -/
def fsMarchOnly : Fs :=
  { files := [(docMarch.storagePath, FData.blob 7)]
    dirs := [[("up").data], [("up").data, seg2024], [("up").data, seg2024, segAcme],
      [("up").data, seg2024, segAcme, segMarch]]
    locked := [] }

/-- Storage tree holding the March document and an April sibling. -/
def fsMarchApril : Fs :=
  { files := [(docMarch.storagePath, FData.blob 7), (docAprilFile, FData.blob 8)]
    dirs := [[("up").data], [("up").data, seg2024], [("up").data, seg2024, segAcme],
      [("up").data, seg2024, segAcme, segMarch], [("up").data, seg2024, segAcme, segApril]]
    locked := [] }

/-- The four-part base of a derived stored name:
`<sanitizedMerchant>-<sanitizedMonth>-<sanitizedYear>` as the claim spells
it. -/
def deriveBase (nrm : List Char → List Char) (m mo : Option (List Char))
    (y : Option Nat) : List Char :=
  sanitizeFileBaseName nrm m (("merchant").data) ++ '-' ::
    (sanitizeFileBaseName nrm mo (("month").data) ++ '-' ::
      sanitizeFileBaseName nrm
        (match y with
         | some n => some (natChars n)
         | none => some []) (("year").data))

/-- The extension a derived stored name carries: from the current stored
name, falling back to the relocated path's. -/
def deriveExt (cur fp : Option (List Char)) : List Char :=
  orNE (extname (cur.getD [])) (extname (fp.getD []))

/-- The page a given image contributes: its resolved dimensions, defaulting
to A4 (595.28 × 841.89 pt) when its descriptor carries none (the error
branch is never reached when the image opens). -/
def pageOfD (env : PdfEnv) (f : UpFile) : Nat × Nat :=
  match env.openImage f.path with
  | .ok i => (resolveW i, resolveH i)
  | .error _ => (59528, 84189)

/-- The first failure a merge run hits: the first image that does not
open, else a stream write failure, else none. -/
def firstMergeErr (env : PdfEnv) (files : List UpFile) : Option CoreErr :=
  match buildPages env files with
  | .error e => some e
  | .ok _ => if env.streamOk then none else some .streamWrite

/-- The hierarchy directory a PATCH relocation targets. -/
def patchTarget (nrm : List Char → List Char) (ud : FsPath) (d : DocRec)
    (b : PatchBody) : FsPath :=
  ud ++ [jsTrim ((natChars (b.year.getD d.year)).filter isDigitCh),
    sanitizeDirectoryName nrm (some (nextMerchantOf d b)) (("merchant").data),
    sanitizeDirectoryName nrm (some (b.month.getD d.month)) (("month").data)]

/-- The `storagePath` of an ingestion result as a slash-joined string
(empty on error). -/
def okStoragePathStr (r : Except CoreErr DocRec) : List Char :=
  match r with
  | .ok d => joinPath d.storagePath
  | .error _ => []

/-! ## Claim statements quantifying over every faithful normalisation -/

/-- The sanitiser-idempotence property as claimed for every string and
every fallback (`x = none` is the `undefined` input). -/
def sanitizeIdemAllClaim : Prop :=
  ∀ nrm, NfkdFaithful nrm → ∀ (x : Option (List Char)) (fb : List Char),
    sanitizeNameSegment nrm (some (sanitizeNameSegment nrm x fb)) fb =
      sanitizeNameSegment nrm x fb

/-!
# Theorems

## Sanitizer shape lemmas
-/

theorem sanOutChar_of_alnum {c : Char} (h : isAsciiAlnum c = true) :
    sanOutChar c = true := by
  simp [sanOutChar, h]

theorem sanOutChar_dash : sanOutChar '-' = true := by decide

theorem not_alnum_dash : isAsciiAlnum '-' = false := by decide

theorem mem_replRuns :
    ∀ (l : List Char) (fl : Bool) (c : Char), c ∈ replRuns fl l → sanOutChar c = true := by
  intro l
  induction l with
  | nil => intro fl c h; simp [replRuns] at h
  | cons a t ih =>
    intro fl c h
    by_cases ha : isAsciiAlnum a = true
    · rw [replRuns, if_pos ha] at h
      rcases List.mem_cons.mp h with rfl | h
      · exact sanOutChar_of_alnum ha
      · exact ih false c h
    · rw [replRuns, if_neg ha] at h
      cases fl with
      | true => rw [if_pos rfl] at h; exact ih true c h
      | false =>
        rw [if_neg (by decide)] at h
        rcases List.mem_cons.mp h with rfl | h
        · exact sanOutChar_dash
        · exact ih true c h

theorem replRuns_chain :
    ∀ (l : List Char),
      NoDH (replRuns false l) ∧ NoDH (replRuns true l) ∧ headAl (replRuns true l) := by
  intro l
  induction l with
  | nil => exact ⟨List.chain'_nil, List.chain'_nil, trivial⟩
  | cons a t ih =>
    obtain ⟨ihf, iht, ihh⟩ := ih
    by_cases ha : isAsciiAlnum a = true
    · have hcons : NoDH (a :: replRuns false t) := by
        refine List.chain'_cons'.mpr ⟨?_, ihf⟩
        intro y hy
        rintro ⟨hae, -⟩
        rw [hae] at ha
        exact absurd ha (by decide)
      refine ⟨?_, ?_, ?_⟩
      · rw [replRuns, if_pos ha]; exact hcons
      · rw [replRuns, if_pos ha]; exact hcons
      · rw [replRuns, if_pos ha]; exact ha
    · refine ⟨?_, ?_, ?_⟩
      · rw [replRuns, if_neg ha, if_neg (by decide)]
        refine List.chain'_cons'.mpr ⟨?_, iht⟩
        intro y hy
        rintro ⟨-, hye⟩
        cases hrt : replRuns true t with
        | nil => rw [hrt] at hy; simp at hy
        | cons b bs =>
          rw [hrt] at hy
          simp only [List.head?_cons, Option.mem_def, Option.some.injEq] at hy
          rw [hrt] at ihh
          rw [hy] at ihh
          have hyal : isAsciiAlnum y = true := ihh
          rw [hye] at hyal
          exact absurd hyal (by decide)
      · rw [replRuns, if_neg ha, if_pos rfl]; exact iht
      · rw [replRuns, if_neg ha, if_pos rfl]; exact ihh

theorem mem_collapseHy :
    ∀ (l : List Char) (fl : Bool) (c : Char), c ∈ collapseHy fl l → c ∈ l := by
  intro l
  induction l with
  | nil => intro fl c h; simp [collapseHy] at h
  | cons a t ih =>
    intro fl c h
    by_cases hd : a = '-'
    · rw [collapseHy, if_pos hd] at h
      cases fl with
      | true =>
        rw [if_pos rfl] at h
        exact List.mem_cons_of_mem a (ih true c h)
      | false =>
        rw [if_neg (by decide)] at h
        rcases List.mem_cons.mp h with rfl | h
        · rw [hd]; exact List.mem_cons_self _ _
        · exact List.mem_cons_of_mem a (ih true c h)
    · rw [collapseHy, if_neg hd] at h
      rcases List.mem_cons.mp h with rfl | h
      · exact List.mem_cons_self _ _
      · exact List.mem_cons_of_mem a (ih false c h)

theorem collapseHy_chain :
    ∀ (l : List Char),
      NoDH (collapseHy false l) ∧ NoDH (collapseHy true l) ∧ headOk (collapseHy true l) := by
  intro l
  induction l with
  | nil => exact ⟨List.chain'_nil, List.chain'_nil, trivial⟩
  | cons a t ih =>
    obtain ⟨ihf, iht, ihh⟩ := ih
    by_cases hd : a = '-'
    · refine ⟨?_, ?_, ?_⟩
      · rw [collapseHy, if_pos hd, if_neg (by decide)]
        refine List.chain'_cons'.mpr ⟨?_, iht⟩
        intro y hy
        rintro ⟨-, hye⟩
        cases hct : collapseHy true t with
        | nil => rw [hct] at hy; simp at hy
        | cons b bs =>
          rw [hct] at hy
          simp only [List.head?_cons, Option.mem_def, Option.some.injEq] at hy
          rw [hct] at ihh
          have hbn : b ≠ '-' := ihh
          rw [hy, hye] at hbn
          exact hbn rfl
      · rw [collapseHy, if_pos hd, if_pos rfl]; exact iht
      · rw [collapseHy, if_pos hd, if_pos rfl]; exact ihh
    · have hcons : NoDH (a :: collapseHy false t) := by
        refine List.chain'_cons'.mpr ⟨?_, ihf⟩
        intro y hy
        rintro ⟨hae, -⟩
        exact hd hae
      refine ⟨?_, ?_, ?_⟩
      · rw [collapseHy, if_neg hd]; exact hcons
      · rw [collapseHy, if_neg hd]; exact hcons
      · rw [collapseHy, if_neg hd]; exact hd

theorem trimLead_sublist : ∀ l : List Char, (trimLead l).Sublist l := by
  intro l
  match l with
  | [] => exact List.Sublist.refl []
  | c :: t =>
    by_cases hc : c = '-'
    · rw [hc, trimLead]; exact List.sublist_cons_self '-' t
    · have : trimLead (c :: t) = c :: t := by
        rw [trimLead.eq_def]
        split
        · rename_i heq; rw [List.cons.injEq] at heq; exact absurd heq.1 (by exact fun h => hc h)
        · rfl
      rw [this]

theorem trimLead_cons_ne {c : Char} {t : List Char} (hc : c ≠ '-') :
    trimLead (c :: t) = c :: t := by
  rw [trimLead.eq_def]
  split
  · rename_i heq
    rw [List.cons.injEq] at heq
    exact absurd heq.1 hc
  · rfl

theorem trimLead_headOk {l : List Char} (h : NoDH l) : headOk (trimLead l) := by
  match l with
  | [] => trivial
  | c :: t =>
    by_cases hc : c = '-'
    · rw [hc, trimLead]
      match t with
      | [] => trivial
      | b :: bs =>
        have := (List.chain'_cons.mp (by rw [hc] at h; exact h)).1
        intro hb
        exact this ⟨rfl, hb⟩
    · rw [trimLead_cons_ne hc]; exact hc

theorem trimLead_noDH {l : List Char} (h : NoDH l) : NoDH (trimLead l) := by
  match l with
  | [] => exact h
  | c :: t =>
    by_cases hc : c = '-'
    · rw [hc, trimLead]
      exact (List.chain'_cons'.mp (by rw [hc] at h; exact h)).2
    · rw [trimLead_cons_ne hc]; exact h

theorem noDH_reverse {l : List Char} (h : NoDH l) : NoDH l.reverse := by
  rw [NoDH, List.chain'_reverse]
  exact h.imp (fun a b hab => by rintro ⟨h1, h2⟩; exact hab ⟨h2, h1⟩)

/-- If the last character of `r` is not a hyphen, neither is the last
character of `trimLead r`. -/
theorem trimLead_reverse_headOk {r : List Char} (hr : headOk r.reverse) :
    headOk (trimLead r).reverse := by
  match r with
  | [] => trivial
  | c :: t =>
    by_cases hc : c = '-'
    · rw [hc, trimLead]
      match t with
      | [] => trivial
      | b :: bs =>
        have hrev : ((c :: (b :: bs)).reverse) = (b :: bs).reverse ++ [c] := by
          simp
        rw [hrev] at hr
        cases hbs : (b :: bs).reverse with
        | nil => simp at hbs
        | cons d ds => rw [hbs] at hr; exact hr
    · rw [trimLead_cons_ne hc]; exact hr

theorem sanForm_pipeline {l : List Char}
    (hall : ∀ c ∈ l, sanOutChar c = true) (hch : NoDH l) :
    SanForm (trimTrail (trimLead l)) := by
  have h1all : ∀ c ∈ trimLead l, sanOutChar c = true := fun c hc =>
    hall c ((trimLead_sublist l).mem hc)
  have h1ch : NoDH (trimLead l) := trimLead_noDH hch
  have h1hd : headOk (trimLead l) := trimLead_headOk hch
  have h2all : ∀ c ∈ trimTrail (trimLead l), sanOutChar c = true := by
    intro c hc
    rw [trimTrail, List.mem_reverse] at hc
    exact h1all c (List.mem_reverse.mp ((trimLead_sublist _).mem hc))
  have h1chr : NoDH (trimLead l).reverse := noDH_reverse h1ch
  have h2ch : NoDH (trimTrail (trimLead l)) := by
    rw [trimTrail]
    exact noDH_reverse (trimLead_noDH h1chr)
  refine ⟨h2all, h2ch, ?_, ?_⟩
  · rw [trimTrail]
    exact trimLead_reverse_headOk (by rw [List.reverse_reverse]; exact h1hd)
  · rw [trimTrail, List.reverse_reverse]
    exact trimLead_headOk h1chr

theorem sanForm_sanCore (nrm : List Char → List Char) (v : List Char) :
    SanForm (sanCore nrm v) := by
  rw [sanCore]
  exact sanForm_pipeline
    (fun c hc => mem_replRuns _ _ _ (mem_collapseHy _ _ _ hc))
    (collapseHy_chain _).1

/-! ### The sanitiser fixes every string already in sanitised shape -/

theorem sanOutChar_lt128 {c : Char} (h : sanOutChar c = true) : c.toNat < 128 := by
  rw [sanOutChar, Bool.or_eq_true, isAsciiAlnum] at h
  rcases h with h | h
  · simp only [Bool.or_eq_true, Bool.and_eq_true, decide_eq_true_eq] at h
    omega
  · have : c = '-' := by simpa using h
    rw [this]; decide

theorem stripMarks_id {l : List Char} (h : ∀ c ∈ l, sanOutChar c = true) :
    stripMarks l = l := by
  rw [stripMarks]
  apply List.filter_eq_self.mpr
  intro c hc
  have := sanOutChar_lt128 (h c hc)
  rw [isMark]
  simp only [Bool.not_eq_true', Bool.and_eq_false_iff, decide_eq_false_iff_not]
  left
  omega

theorem replRuns_id :
    ∀ (l : List Char),
      ((∀ c ∈ l, sanOutChar c = true) → NoDH l → replRuns false l = l) ∧
      ((∀ c ∈ l, sanOutChar c = true) → NoDH l → headOk l → replRuns true l = l) := by
  intro l
  induction l with
  | nil => exact ⟨fun _ _ => rfl, fun _ _ _ => rfl⟩
  | cons a t ih =>
    have htail : ∀ (h : ∀ c ∈ a :: t, sanOutChar c = true), ∀ c ∈ t, sanOutChar c = true :=
      fun h c hc => h c (List.mem_cons_of_mem a hc)
    constructor
    · intro hall hch
      by_cases ha : isAsciiAlnum a = true
      · rw [replRuns, if_pos ha]
        rw [ih.1 (htail hall) ((List.chain'_cons'.mp hch).2)]
      · have hdash : a = '-' := by
          have := hall a (List.mem_cons_self a t)
          rw [sanOutChar, Bool.or_eq_true] at this
          rcases this with h | h
          · exact absurd h ha
          · simpa using h
        rw [replRuns, if_neg ha, if_neg (by decide), hdash]
        congr 1
        refine ih.2 (htail hall) ((List.chain'_cons'.mp hch).2) ?_
        cases t with
        | nil => trivial
        | cons b bs =>
          have := (List.chain'_cons.mp hch).1
          intro hb
          exact this ⟨hdash, hb⟩
    · intro hall hch hhd
      by_cases ha : isAsciiAlnum a = true
      · rw [replRuns, if_pos ha]
        rw [ih.1 (htail hall) ((List.chain'_cons'.mp hch).2)]
      · have hdash : a = '-' := by
          have := hall a (List.mem_cons_self a t)
          rw [sanOutChar, Bool.or_eq_true] at this
          rcases this with h | h
          · exact absurd h ha
          · simpa using h
        exact absurd hdash hhd

theorem collapseHy_id :
    ∀ (l : List Char),
      (NoDH l → collapseHy false l = l) ∧
      (NoDH l → headOk l → collapseHy true l = l) := by
  intro l
  induction l with
  | nil => exact ⟨fun _ => rfl, fun _ _ => rfl⟩
  | cons a t ih =>
    constructor
    · intro hch
      by_cases ha : a = '-'
      · rw [collapseHy, if_pos ha, if_neg (by decide), ha]
        congr 1
        refine ih.2 ((List.chain'_cons'.mp hch).2) ?_
        cases t with
        | nil => trivial
        | cons b bs =>
          have := (List.chain'_cons.mp hch).1
          intro hb
          exact this ⟨ha, hb⟩
      · rw [collapseHy, if_neg ha]
        rw [ih.1 ((List.chain'_cons'.mp hch).2)]
    · intro hch hhd
      by_cases ha : a = '-'
      · exact absurd ha hhd
      · rw [collapseHy, if_neg ha]
        rw [ih.1 ((List.chain'_cons'.mp hch).2)]

theorem trimLead_id {l : List Char} (h : headOk l) : trimLead l = l := by
  match l with
  | [] => rfl
  | c :: t => exact trimLead_cons_ne h

theorem trimTrail_id {l : List Char} (h : headOk l.reverse) : trimTrail l = l := by
  rw [trimTrail, trimLead_id h, List.reverse_reverse]

theorem sanCore_fixed {nrm : List Char → List Char} {n : List Char}
    (hn : NfkdFaithful nrm) (hs : SanForm n) : sanCore nrm n = n := by
  obtain ⟨hall, hch, hhd, htl⟩ := hs
  rw [sanCore, hn n (fun c hc => sanOutChar_lt128 (hall c hc)), stripMarks_id hall,
    (replRuns_id n).1 hall hch, (collapseHy_id n).1 hch, trimLead_id hhd, trimTrail_id htl]

/-- The sanitiser's output is the fallback or a non-empty string in
sanitised shape. -/
theorem sanitize_out (nrm : List Char → List Char) (value : Option (List Char))
    (fb : List Char) :
    sanitizeNameSegment nrm value fb = fb ∨
      (SanForm (sanitizeNameSegment nrm value fb) ∧
        sanitizeNameSegment nrm value fb ≠ [] ∧
        sanitizeNameSegment nrm value fb = sanCore nrm (value.getD [])) := by
  match value with
  | none => exact Or.inl rfl
  | some v =>
    rw [sanitizeNameSegment]
    by_cases hv : v = []
    · rw [if_pos hv]; exact Or.inl rfl
    · rw [if_neg hv]
      by_cases hn : sanCore nrm v = []
      · simp only [hn, if_pos rfl]; exact Or.inl rfl
      · simp only [if_neg hn]
        exact Or.inr ⟨sanForm_sanCore nrm v, hn, rfl⟩

theorem sanitize_ne_nil (nrm : List Char → List Char) (value : Option (List Char))
    {fb : List Char} (hfb : fb ≠ []) : sanitizeNameSegment nrm value fb ≠ [] := by
  rcases sanitize_out nrm value fb with h | ⟨_, h, _⟩
  · rw [h]; exact hfb
  · exact h

/-- Idempotence of the sanitiser on any fallback that it fixes. -/
theorem sanitize_idem {nrm : List Char → List Char} (hn : NfkdFaithful nrm)
    (value : Option (List Char)) {fb : List Char}
    (hfb : sanitizeNameSegment nrm (some fb) fb = fb) :
    sanitizeNameSegment nrm (some (sanitizeNameSegment nrm value fb)) fb =
      sanitizeNameSegment nrm value fb := by
  rcases sanitize_out nrm value fb with h | ⟨hs, hne, _⟩
  · rw [h, hfb]
  · set r := sanitizeNameSegment nrm value fb with hr
    rw [sanitizeNameSegment, if_neg hne]
    simp only [sanCore_fixed hn hs, if_neg hne]

/-! ## Claim C8 -/

/-- C8 (counterexample): it is not true that
`sanitizeSegment(sanitizeSegment(x, fb), fb) = sanitizeSegment(x, fb)` for
every string `x` and every fallback `fb`: with `x` undefined and
`fb = "a b"`, the inner call returns the fallback `"a b"` verbatim and the
outer call sanitises it to `"a-b"`. -/
theorem C8_sanitizer_idem_cex : ¬ sanitizeIdemAllClaim := by
  intro h
  have := h idChars (fun l _ => rfl) none (("a b").data)
  revert this
  decide

/-- C8 (amended): the sanitiser is idempotent for every input `x` once the
fallback is itself a fixed point of sanitisation (as every fallback the
code passes — `"unknown"`, `"merchant"`, `"month"`, `"year"`,
`"document"` — is), and an empty or undefined input returns the fallback. -/
theorem C8_sanitizer_idem_amended :
    ∀ nrm, NfkdFaithful nrm → ∀ (x : Option (List Char)) (fb : List Char),
      sanitizeNameSegment nrm (some fb) fb = fb →
      sanitizeNameSegment nrm (some (sanitizeNameSegment nrm x fb)) fb =
          sanitizeNameSegment nrm x fb ∧
        sanitizeNameSegment nrm (some []) fb = fb ∧
        sanitizeNameSegment nrm none fb = fb := by
  intro nrm hn x fb hfb
  refine ⟨sanitize_idem hn x hfb, ?_, rfl⟩
  rw [sanitizeNameSegment, if_pos rfl]

/-- C8 (witness): the amended statement at `x = "Acme  Corp!"`,
`fb = "merchant"`. -/
theorem C8_sanitizer_idem_witness :
    sanitizeNameSegment idChars
        (some (sanitizeNameSegment idChars (some (("Acme  Corp!").data)) (("merchant").data)))
        (("merchant").data) =
      sanitizeNameSegment idChars (some (("Acme  Corp!").data)) (("merchant").data) :=
  (C8_sanitizer_idem_amended idChars (fun l _ => rfl)
    (some (("Acme  Corp!").data)) (("merchant").data) (by decide)).1

/-! ## Claim C4 -/

/-- C4: a batch holding at least one image file and at least one non-image
file makes `normaliseUploadedFiles` fail with the mixed-batch error, and
the filesystem comes back exactly as it went in: no file is moved, deleted
or modified. -/
theorem C4_mixed_batch_rejected :
    ∀ (nrm : List Char → List Char) (ud : FsPath) (now : Nat) (env : PdfEnv)
      (fs : Fs) (files : List UpFile) (hint : Option (List Char)),
      (∃ f ∈ files, isImageMimeType f.mimetype = true) →
      (∃ f ∈ files, isImageMimeType f.mimetype = false) →
      normaliseUploadedFiles nrm ud now env fs files hint =
        (fs, .error .mixedBatch) := by
  intro nrm ud now env fs files hint himg hnon
  obtain ⟨f1, hf1, h1⟩ := himg
  obtain ⟨f2, hf2, h2⟩ := hnon
  have hne : files ≠ [] := by
    intro h; rw [h] at hf1; exact absurd hf1 (List.not_mem_nil f1)
  have hall : ¬ (files.all (fun f => isImageMimeType f.mimetype) = true) := by
    intro h
    rw [List.all_eq_true] at h
    rw [h f2 hf2] at h2
    exact absurd h2 (by decide)
  have hany : files.any (fun f => isImageMimeType f.mimetype) = true := by
    rw [List.any_eq_true]
    exact ⟨f1, hf1, h1⟩
  rw [normaliseUploadedFiles, if_neg hne, if_neg hall, if_pos hany]

/-- C4 (witness): one JPEG plus one PDF in the upload directory. -/
theorem C4_mixed_batch_witness :
    normaliseUploadedFiles idChars upDir 1714 envOk fsUpload
        [jpgUploadA, pdfUpload] none =
      (fsUpload, .error .mixedBatch) :=
  C4_mixed_batch_rejected idChars upDir 1714 envOk fsUpload
    [jpgUploadA, pdfUpload] none (by decide) (by decide)

/-! ## Filesystem algebra -/

theorem files_addF (fs : Fs) (p : FsPath) (d : FData) :
    (addF fs p d).files = (p, d) :: (rmF fs p).files := rfl

theorem locked_addF (fs : Fs) (p : FsPath) (d : FData) :
    (addF fs p d).locked = fs.locked := rfl

theorem dirs_addF (fs : Fs) (p : FsPath) (d : FData) :
    (addF fs p d).dirs = fs.dirs := rfl

theorem files_mkdirp (fs : Fs) (p : FsPath) : (mkdirp fs p).files = fs.files := rfl

theorem locked_mkdirp (fs : Fs) (p : FsPath) : (mkdirp fs p).locked = fs.locked := rfl

theorem lookupF_mkdirp (fs : Fs) (p q : FsPath) :
    lookupF (mkdirp fs p) q = lookupF fs q := rfl

theorem rmF_addF (fs : Fs) (p : FsPath) (d : FData) :
    rmF (addF fs p d) p = rmF fs p := by
  simp only [rmF, addF, Fs.mk.injEq, and_true]
  rw [List.filter_cons]
  simp only [decide_True, Bool.not_true, Bool.false_eq_true, if_false]
  rw [List.filter_filter]
  simp

theorem addF_addF (fs : Fs) (p : FsPath) (d1 d2 : FData) :
    addF (addF fs p d1) p d2 = addF fs p d2 := by
  have h := rmF_addF fs p d1
  simp only [addF] at h ⊢
  rw [h]

theorem lookupF_addF_self (fs : Fs) (p : FsPath) (d : FData) :
    lookupF (addF fs p d) p = some d := by
  simp [lookupF, addF, List.find?_cons]

theorem lookupF_addF_ne (fs : Fs) {p q : FsPath} (h : q ≠ p) (d : FData) :
    lookupF (addF fs p d) q = lookupF (rmF fs p) q := by
  simp only [lookupF, addF, List.find?_cons]
  have : decide ((p, d).1 = q) = false := by
    simp only [decide_eq_false_iff_not]
    exact fun hh => h hh.symm
  rw [this]

theorem lookupF_rmF_self (fs : Fs) (p : FsPath) : lookupF (rmF fs p) p = none := by
  simp only [lookupF, rmF, Option.map_eq_none']
  rw [List.find?_eq_none]
  intro e he
  rw [List.mem_filter] at he
  simp only [Bool.not_eq_true', decide_eq_false_iff_not] at he
  simp only [decide_eq_true_eq]
  exact he.2

theorem lookupF_rmF_ne (fs : Fs) {p q : FsPath} (h : q ≠ p) :
    lookupF (rmF fs p) q = lookupF fs q := by
  simp only [lookupF, rmF]
  congr 1
  induction fs.files with
  | nil => rfl
  | cons e t ih =>
    rw [List.filter_cons]
    by_cases hep : e.1 = p
    · simp only [hep, decide_True, Bool.not_true, Bool.false_eq_true, if_false]
      rw [List.find?_cons]
      have : decide (e.1 = q) = false := by
        simp only [decide_eq_false_iff_not]
        rw [hep]
        exact fun hh => h hh.symm
      rw [this, ih]
    · simp only [decide_eq_true_eq, hep, decide_False, Bool.not_false, if_true]
      rw [List.find?_cons, List.find?_cons]
      cases hq : decide (e.1 = q) with
      | true => rfl
      | false => rw [ih]

/-! ## Claims C5 and C6 -/

theorem buildPages_ok {env : PdfEnv} :
    ∀ {files : List UpFile}, (∀ f ∈ files, (env.openImage f.path).isOk = true) →
      buildPages env files = .ok (files.map (pageOfD env)) := by
  intro files
  induction files with
  | nil => intro _; rfl
  | cons f t ih =>
    intro h
    have hf := h f (List.mem_cons_self f t)
    rw [buildPages]
    cases hi : env.openImage f.path with
    | error e => rw [hi] at hf; exact Bool.noConfusion hf
    | ok i =>
      rw [ih (fun g hg => h g (List.mem_cons_of_mem f hg))]
      simp only [List.map_cons, pageOfD, hi]

/-- C5: a non-empty all-opening batch of `N` images makes
`createPdfFromImages` create exactly one new file — the PDF at the derived
output path — holding exactly `N` pages, one per input image in input
order, each page sized to that image's resolved dimensions (A4
595.28 × 841.89 pt when none are available, see `resolveW`/`resolveH`),
and return its descriptor. -/
theorem C5_merge_page_count :
    ∀ (nrm : List Char → List Char) (ud : FsPath) (now : Nat) (env : PdfEnv)
      (fs : Fs) (files : List UpFile) (hint : Option (List Char)),
      files ≠ [] →
      (∀ f ∈ files, (env.openImage f.path).isOk = true) →
      env.streamOk = true →
      createPdfFromImages nrm ud now env fs files hint =
          (addF fs (mergedPdfPath nrm ud now files hint)
            (FData.pdfDoc (files.map (pageOfD env))),
           .ok { path := mergedPdfPath nrm ud now files hint,
                 originalname := mergedBaseName nrm files hint ++ (".pdf").data,
                 filename := natChars now ++ '-' ::
                   (mergedBaseName nrm files hint ++ (".pdf").data),
                 mimetype := ("application/pdf").data,
                 size := (files.map (pageOfD env)).length }) ∧
        (files.map (pageOfD env)).length = files.length := by
  intro nrm ud now env fs files hint hne hopen hs
  constructor
  · rw [createPdfFromImages, if_neg hne]
    simp only [buildPages_ok hopen, hs, if_pos, mergedPdfPath, mergedBaseName, addF_addF]
  · exact List.length_map _ _

/-- C5 (witness): merging the two scenario JPEGs yields one two-page PDF,
pages sized 2 pt × 3 pt. -/
theorem C5_merge_page_count_witness :
    createPdfFromImages idChars upDir 1714 envOk fsUpload [jpgUploadA, jpgUploadB]
        (some (("Acme-March-2024").data)) =
      (addF fsUpload (mergedPdfPath idChars upDir 1714 [jpgUploadA, jpgUploadB]
          (some (("Acme-March-2024").data)))
        (FData.pdfDoc [(200, 300), (200, 300)]),
       .ok { path := mergedPdfPath idChars upDir 1714 [jpgUploadA, jpgUploadB]
               (some (("Acme-March-2024").data)),
             originalname := (("Acme-March-2024.pdf")).data,
             filename := (("1714-Acme-March-2024.pdf")).data,
             mimetype := ("application/pdf").data,
             size := 2 }) := by
  have h := (C5_merge_page_count idChars upDir 1714 envOk fsUpload
    [jpgUploadA, jpgUploadB] (some (("Acme-March-2024").data))
    (by decide) (by decide) (by decide)).1
  rw [h]
  decide

/-- C6: when a merge run fails — an image that does not open, or the write
stream failing — `createPdfFromImages` deletes the partially written
output file before propagating that original error, so no file remains at
the output path. -/
theorem C6_merge_failure_cleanup :
    ∀ (nrm : List Char → List Char) (ud : FsPath) (now : Nat) (env : PdfEnv)
      (fs : Fs) (files : List UpFile) (hint : Option (List Char)) (e : CoreErr),
      files ≠ [] →
      mergedPdfPath nrm ud now files hint ∉ fs.locked →
      firstMergeErr env files = some e →
      createPdfFromImages nrm ud now env fs files hint =
          (rmF fs (mergedPdfPath nrm ud now files hint), .error e) ∧
        lookupF (createPdfFromImages nrm ud now env fs files hint).1
          (mergedPdfPath nrm ud now files hint) = none := by
  intro nrm ud now env fs files hint e hne hlock herr
  have hmain : createPdfFromImages nrm ud now env fs files hint =
      (rmF fs (mergedPdfPath nrm ud now files hint), .error e) := by
    rw [createPdfFromImages, if_neg hne]
    rw [firstMergeErr] at herr
    have hlock' : (mergedPdfPath nrm ud now files hint) ∉
        (addF fs (mergedPdfPath nrm ud now files hint) (FData.pdfDoc [])).locked := by
      rw [locked_addF]; exact hlock
    cases hb : buildPages env files with
    | error e2 =>
      rw [hb] at herr
      simp only [Option.some.injEq] at herr
      simp only [mergedPdfPath, mergedBaseName] at hlock' ⊢
      simp only [if_neg hlock', rmF_addF, herr]
    | ok ps =>
      rw [hb] at herr
      by_cases hs : env.streamOk = true
      · rw [if_pos hs] at herr; exact Option.noConfusion herr
      · rw [if_neg hs] at herr
        simp only [Option.some.injEq] at herr
        have hs' : env.streamOk = false := by
          cases hst : env.streamOk with
          | true => exact absurd hst hs
          | false => rfl
        simp only [mergedPdfPath, mergedBaseName] at hlock' ⊢
        simp only [hs', Bool.false_eq_true, if_false, if_neg hlock', rmF_addF, herr]
  exact ⟨hmain, by rw [hmain]; exact lookupF_rmF_self _ _⟩

/-- C6 (witness): the second scenario image fails to open; the output file
is gone and the caller sees that image's open error. -/
theorem C6_merge_failure_cleanup_witness :
    createPdfFromImages idChars upDir 1714 envBadB fsUpload [jpgUploadA, jpgUploadB]
        none =
      (rmF fsUpload (mergedPdfPath idChars upDir 1714 [jpgUploadA, jpgUploadB] none),
       .error (.imgOpen jpgUploadB.path)) :=
  (C6_merge_failure_cleanup idChars upDir 1714 envBadB fsUpload
    [jpgUploadA, jpgUploadB] none (.imgOpen jpgUploadB.path)
    (by decide) (by decide) (by decide)).1

/-! ## List and character helper lemmas for filename derivation -/

theorem mem_takeWhileCh {p : Char → Bool} {c : Char} :
    ∀ {l : List Char}, c ∈ l.takeWhile p → c ∈ l := by
  intro l
  induction l with
  | nil => intro h; exact absurd h (List.not_mem_nil c)
  | cons a t ih =>
    intro h
    rw [List.takeWhile_cons] at h
    by_cases ha : p a = true
    · rw [if_pos ha] at h
      rcases List.mem_cons.mp h with rfl | h
      · exact List.mem_cons_self _ _
      · exact List.mem_cons_of_mem a (ih h)
    · rw [if_neg ha] at h
      exact absurd h (List.not_mem_nil c)

theorem mem_dropWhileCh {p : Char → Bool} {c : Char} :
    ∀ {l : List Char}, c ∈ l.dropWhile p → c ∈ l := by
  intro l
  induction l with
  | nil => intro h; exact h
  | cons a t ih =>
    intro h
    rw [List.dropWhile_cons] at h
    by_cases ha : p a = true
    · rw [if_pos ha] at h
      exact List.mem_cons_of_mem a (ih h)
    · rw [if_neg ha] at h
      exact h

theorem takeWhile_all {p : Char → Bool} :
    ∀ {l : List Char}, (∀ c ∈ l, p c = true) → l.takeWhile p = l := by
  intro l
  induction l with
  | nil => intro _; rfl
  | cons a t ih =>
    intro h
    rw [List.takeWhile_cons, if_pos (h a (List.mem_cons_self a t)),
      ih (fun c hc => h c (List.mem_cons_of_mem a hc))]

theorem takeWhile_full_append {p : Char → Bool} {b : List Char} :
    ∀ {a : List Char}, (∀ c ∈ a, p c = true) →
      (a ++ b).takeWhile p = a ++ b.takeWhile p := by
  intro a
  induction a with
  | nil => intro _; rfl
  | cons x t ih =>
    intro h
    rw [List.cons_append, List.takeWhile_cons, if_pos (h x (List.mem_cons_self x t)),
      ih (fun c hc => h c (List.mem_cons_of_mem x hc)), List.cons_append]

theorem dropWhile_all_neg {p : Char → Bool} :
    ∀ {l : List Char}, (∀ c ∈ l, p c = false) → l.dropWhile p = l := by
  intro l
  induction l with
  | nil => intro _; rfl
  | cons a t ih =>
    intro h
    rw [List.dropWhile_cons, if_neg (by rw [h a (List.mem_cons_self a t)]; decide)]

/-- If the trimmed string is empty, everything in it was whitespace. -/
theorem jsTrim_eq_nil {v : List Char} (h : jsTrim v = []) :
    ∀ c ∈ v, isJsWs c = true := by
  rw [jsTrim] at h
  have h1 : (v.dropWhile isJsWs).reverse.dropWhile isJsWs = [] := by
    cases he : (v.dropWhile isJsWs).reverse.dropWhile isJsWs with
    | nil => rfl
    | cons a t => rw [he] at h; exact absurd h (by simp)
  have h2 : ∀ c ∈ (v.dropWhile isJsWs).reverse, isJsWs c = true := by
    rw [List.dropWhile_eq_nil_iff] at h1
    exact h1
  intro c hc
  rcases List.append_of_mem hc with ⟨s, t, rfl⟩
  by_cases hmem : c ∈ (s ++ c :: t).dropWhile isJsWs
  · exact h2 c (List.mem_reverse.mpr hmem)
  · -- c was dropped, so the prefix up to and including c is all whitespace
    by_contra hws
    have : (s ++ c :: t).dropWhile isJsWs = ((s ++ c :: t).dropWhile isJsWs) := rfl
    -- if c is not whitespace, dropWhile stops at or before c, keeping it
    have hkeep : c ∈ (s ++ c :: t).dropWhile isJsWs := by
      clear hmem this h h1 h2 hc
      induction s with
      | nil =>
        rw [List.nil_append, List.dropWhile_cons,
          if_neg (by rw [Bool.not_eq_true] at hws; rw [hws]; decide)]
        exact List.mem_cons_self _ _
      | cons a s ih =>
        rw [List.cons_append, List.dropWhile_cons]
        by_cases ha : isJsWs a = true
        · rw [if_pos ha]; exact ih
        · rw [if_neg ha]
          exact List.mem_cons_of_mem a (List.mem_append_right s (List.mem_cons_self c t))
    exact hmem hkeep

theorem isDigitCh_facts {c : Char} (h : isDigitCh c = true) :
    c ≠ '-' ∧ c ≠ '.' ∧ c ≠ '/' ∧ isJsWs c = false ∧ sanOutChar c = true := by
  refine ⟨?_, ?_, ?_, ?_, ?_⟩
  · intro hc; rw [hc] at h; exact absurd h (by decide)
  · intro hc; rw [hc] at h; exact absurd h (by decide)
  · intro hc; rw [hc] at h; exact absurd h (by decide)
  · cases hw : isJsWs c with
    | false => rfl
    | true =>
      exfalso
      rw [isJsWs] at hw
      simp only [Bool.or_eq_true, decide_eq_true_eq] at hw
      rw [isDigitCh] at h
      simp only [Bool.and_eq_true, decide_eq_true_eq] at h
      rcases hw with ((((hc | hc) | hc) | hc) | hn) | hn
      · rw [hc] at h; revert h; decide
      · rw [hc] at h; revert h; decide
      · rw [hc] at h; revert h; decide
      · rw [hc] at h; revert h; decide
      · omega
      · omega
  · rw [sanOutChar, isAsciiAlnum]
    rw [isDigitCh] at h
    simp only [Bool.and_eq_true, decide_eq_true_eq] at h
    simp only [Bool.or_eq_true, Bool.and_eq_true, decide_eq_true_eq]
    left; left; omega

theorem sanOutChar_facts {c : Char} (h : sanOutChar c = true) :
    c ≠ '.' ∧ c ≠ '/' := by
  constructor
  · intro hc; rw [hc] at h; exact absurd h (by decide)
  · intro hc; rw [hc] at h; exact absurd h (by decide)

theorem natCharsGo_all_digit :
    ∀ (fuel n : Nat) (acc : List Char), (∀ c ∈ acc, isDigitCh c = true) →
      ∀ c ∈ natCharsGo fuel n acc, isDigitCh c = true := by
  intro fuel
  induction fuel with
  | zero => intro n acc hacc; exact hacc
  | succ fuel ih =>
    intro n acc hacc c hc
    rw [natCharsGo] at hc
    have hdig : isDigitCh (Char.ofNat (48 + n % 10)) = true := by
      have hklt : n % 10 < 10 := Nat.mod_lt _ (by omega)
      set k := n % 10 with hk
      clear hk hc ih
      interval_cases k <;> decide
    have hacc' : ∀ x ∈ Char.ofNat (48 + n % 10) :: acc, isDigitCh x = true := by
      intro x hx
      rcases List.mem_cons.mp hx with rfl | hx
      · exact hdig
      · exact hacc x hx
    by_cases hn : n < 10
    · rw [if_pos hn] at hc
      exact hacc' c hc
    · rw [if_neg hn] at hc
      exact ih (n / 10) _ hacc' c hc

theorem natChars_all_digit (n : Nat) : ∀ c ∈ natChars n, isDigitCh c = true :=
  natCharsGo_all_digit (n + 1) n [] (fun c hc => absurd hc (List.not_mem_nil c))

theorem natCharsGo_ne_nil :
    ∀ (fuel n : Nat) (acc : List Char), acc ≠ [] → natCharsGo fuel n acc ≠ [] := by
  intro fuel
  induction fuel with
  | zero => intro n acc h; exact h
  | succ fuel ih =>
    intro n acc h
    rw [natCharsGo]
    by_cases hn : n < 10
    · rw [if_pos hn]; exact List.cons_ne_nil _ _
    · rw [if_neg hn]; exact ih (n / 10) _ (List.cons_ne_nil _ _)

theorem natChars_ne_nil (n : Nat) : natChars n ≠ [] := by
  rw [natChars, natCharsGo]
  by_cases hn : n < 10
  · rw [if_pos hn]; exact List.cons_ne_nil _ _
  · rw [if_neg hn]; exact natCharsGo_ne_nil n (n / 10) _ (List.cons_ne_nil _ _)

theorem takeWhile_sat {p : Char → Bool} :
    ∀ {l : List Char} {c : Char}, c ∈ l.takeWhile p → p c = true := by
  intro l
  induction l with
  | nil => intro c h; exact absurd h (List.not_mem_nil c)
  | cons a t ih =>
    intro c h
    rw [List.takeWhile_cons] at h
    by_cases ha : p a = true
    · rw [if_pos ha] at h
      rcases List.mem_cons.mp h with rfl | h
      · exact ha
      · exact ih h
    · rw [if_neg ha] at h
      exact absurd h (List.not_mem_nil c)

theorem extname_noslash {q : List Char} (h : '/' ∉ q) :
    extname q = extnameCore q := by
  rw [extname]
  have h1 : q.reverse.dropWhile (fun c => c = '/') = q.reverse := by
    apply dropWhile_all_neg
    intro c hc
    rw [List.mem_reverse] at hc
    simp only [decide_eq_false_iff_not]
    intro he; rw [he] at hc; exact h hc
  have h2 : q.reverse.takeWhile (fun c => c ≠ '/') = q.reverse := by
    apply takeWhile_all
    intro c hc
    rw [List.mem_reverse] at hc
    simp only [ne_eq, decide_not, Bool.not_eq_true', decide_eq_false_iff_not]
    intro he; rw [he] at hc; exact h hc
  rw [h1, h2, List.reverse_reverse]

theorem extnameCore_concrete {a e : List Char} (ha : a ≠ [])
    (hand : ∃ c ∈ a, c ≠ '.') (he : '.' ∉ e) :
    extnameCore (a ++ '.' :: e) = '.' :: e := by
  have halen : 0 < a.length := List.length_pos.mpr ha
  rw [extnameCore]
  have hne2 : a ++ '.' :: e ≠ ['.', '.'] := by
    intro hq
    match a, ha with
    | x :: xs, _ =>
      rw [List.cons_append, List.cons.injEq] at hq
      obtain ⟨rfl, hq⟩ := hq
      match xs, hq with
      | [], hq =>
        rw [List.nil_append, List.cons.injEq] at hq
        obtain ⟨-, rfl⟩ := hq
        obtain ⟨c, hc, hcne⟩ := hand
        rcases List.mem_cons.mp hc with rfl | hc
        · exact hcne rfl
        · exact absurd hc (List.not_mem_nil c)
      | y :: ys, hq =>
        rw [List.cons_append, List.cons.injEq] at hq
        exact absurd hq.2 (by simp)
  rw [if_neg hne2]
  have hrev : (a ++ '.' :: e).reverse = e.reverse ++ '.' :: a.reverse := by
    simp
  have hsuf : ((a ++ '.' :: e).reverse.takeWhile (fun c => c ≠ '.')) = e.reverse := by
    rw [hrev, takeWhile_full_append, List.takeWhile_cons, if_neg (by simp)]
    · rw [List.append_nil]
    · intro c hc
      rw [List.mem_reverse] at hc
      simp only [ne_eq, decide_not, Bool.not_eq_true', decide_eq_false_iff_not]
      intro hce; rw [hce] at hc; exact he hc
  rw [hsuf]
  have hlen : (a ++ '.' :: e).length = a.length + 1 + e.length := by
    simp; omega
  rw [if_neg (by rw [List.length_reverse, hlen]; omega),
    if_neg (by rw [List.length_reverse, hlen]; omega), List.reverse_reverse]

theorem extnameCore_nodot {b : List Char} (h : '.' ∉ b) : extnameCore b = [] := by
  rw [extnameCore]
  have hne : b ≠ ['.', '.'] := by
    intro hb; rw [hb] at h; exact h (List.mem_cons_self _ _)
  rw [if_neg hne]
  have hall : b.reverse.takeWhile (fun c => c ≠ '.') = b.reverse := by
    apply takeWhile_all
    intro c hc
    rw [List.mem_reverse] at hc
    simp only [ne_eq, decide_not, Bool.not_eq_true', decide_eq_false_iff_not]
    intro hce; rw [hce] at hc; exact h hc
  rw [hall, if_pos (List.length_reverse b)]

theorem extname_shape (p : List Char) :
    extname p = [] ∨ ∃ e, extname p = '.' :: e ∧ '.' ∉ e ∧ '/' ∉ e := by
  rw [extname, extnameCore]
  by_cases hb :
      ((p.reverse.dropWhile (fun c => c = '/')).takeWhile (fun c => c ≠ '/')).reverse =
        ['.', '.']
  · rw [if_pos hb]; exact Or.inl rfl
  · rw [if_neg hb]
    by_cases h1 :
        (((p.reverse.dropWhile (fun c => c = '/')).takeWhile
            (fun c => c ≠ '/')).reverse.reverse.takeWhile (fun c => c ≠ '.')).length =
          ((p.reverse.dropWhile (fun c => c = '/')).takeWhile (fun c => c ≠ '/')).reverse.length
    · rw [if_pos h1]; exact Or.inl rfl
    · rw [if_neg h1]
      by_cases h2 :
          (((p.reverse.dropWhile (fun c => c = '/')).takeWhile
              (fun c => c ≠ '/')).reverse.reverse.takeWhile (fun c => c ≠ '.')).length + 1 =
            ((p.reverse.dropWhile (fun c => c = '/')).takeWhile (fun c => c ≠ '/')).reverse.length
      · rw [if_pos h2]; exact Or.inl rfl
      · rw [if_neg h2]
        refine Or.inr ⟨_, rfl, ?_, ?_⟩
        · intro hc
          rw [List.mem_reverse] at hc
          have := takeWhile_sat hc
          simp at this
        · intro hc
          rw [List.mem_reverse] at hc
          have hc2 := mem_takeWhileCh hc
          rw [List.reverse_reverse] at hc2
          have := takeWhile_sat hc2
          simp at this

theorem append_cons_ne_nil (xs zs : List Char) (c : Char) : xs ++ c :: zs ≠ [] := by
  cases xs <;> simp

theorem orNE_nil (x : List Char) : orNE x [] = x := by
  by_cases h : x = []
  · rw [orNE, if_pos h, h]
  · rw [orNE, if_neg h]

theorem filter_ne_nil_three {s1 s2 s3 : List Char} (h1 : s1 ≠ []) (h2 : s2 ≠ [])
    (h3 : s3 ≠ []) :
    ([s1, s2, s3].filter (fun s => s ≠ [])) = [s1, s2, s3] := by
  simp [List.filter_cons, h1, h2, h3]

theorem intercalate_three (s1 s2 s3 : List Char) :
    List.intercalate ['-'] [s1, s2, s3] = s1 ++ '-' :: (s2 ++ '-' :: s3) := by
  simp [List.intercalate, List.intersperse]

/-- `deriveStoredFileName` always produces
`<prefix>-<sanitizedMerchant>-<sanitizedMonth>-<sanitizedYear><ext>`: the
three metadata segments are never empty (their fallbacks are non-empty),
so the `filter(Boolean)` keeps them all, the joined base is non-empty, and
the original-basename fallback branch is dead. -/
theorem derive_shape (nrm : List Char → List Char) (now : Nat)
    (cur : Option (List Char)) (m mo : Option (List Char)) (y : Option Nat)
    (fp : Option (List Char)) :
    deriveStoredFileName nrm now cur m mo y fp =
      ensureTsPre now cur ++ '-' :: (deriveBase nrm m mo y ++ deriveExt cur fp) := by
  have h1 : sanitizeFileBaseName nrm m (("merchant").data) ≠ [] :=
    sanitize_ne_nil nrm m (by decide)
  have h2 : sanitizeFileBaseName nrm mo (("month").data) ≠ [] :=
    sanitize_ne_nil nrm mo (by decide)
  have h3 : sanitizeFileBaseName nrm
      (match y with
       | some n => some (natChars n)
       | none => some []) (("year").data) ≠ [] :=
    sanitize_ne_nil nrm _ (by decide)
  rw [deriveStoredFileName.eq_def]
  simp only [filter_ne_nil_three h1 h2 h3, intercalate_three]
  rw [orNE, if_neg (append_cons_ne_nil _ _ _), orNE_nil]
  rfl

theorem ensureTsPre_ne_nil (now : Nat) (cur : Option (List Char)) :
    ensureTsPre now cur ≠ [] := by
  match cur with
  | none => exact natChars_ne_nil now
  | some v =>
    rw [ensureTsPre]
    by_cases ht : jsTrim v = []
    · rw [if_pos ht]; exact natChars_ne_nil now
    · rw [if_neg ht]
      by_cases hp : 0 < (v.takeWhile (fun c => c ≠ '-')).length ∧
          (v.takeWhile (fun c => c ≠ '-')).length < v.length
      · rw [if_pos hp]
        intro h
        rw [h] at hp
        exact absurd hp.1 (by simp)
      · rw [if_neg hp]
        by_cases hd : v.takeWhile isDigitCh = []
        · rw [if_pos hd]; exact natChars_ne_nil now
        · rw [if_neg hd]; exact hd

theorem ensureTsPre_hyphen {a b : List Char} (ha : a ≠ []) (hna : '-' ∉ a)
    (now : Nat) : ensureTsPre now (some (a ++ '-' :: b)) = a := by
  rw [ensureTsPre]
  have htrim : jsTrim (a ++ '-' :: b) ≠ [] := by
    intro ht
    have := jsTrim_eq_nil ht '-' (List.mem_append_right a (List.mem_cons_self _ _))
    exact absurd this (by decide)
  rw [if_neg htrim]
  have htw : (a ++ '-' :: b).takeWhile (fun c => c ≠ '-') = a := by
    rw [takeWhile_full_append, List.takeWhile_cons, if_neg (by simp), List.append_nil]
    intro c hc
    simp only [ne_eq, decide_not, Bool.not_eq_true', decide_eq_false_iff_not]
    intro hce; rw [hce] at hc; exact hna hc
  rw [htw, if_pos]
  constructor
  · exact List.length_pos.mpr ha
  · rw [List.length_append, List.length_cons]
    omega

theorem ensureTsPre_nohyphen_digits {v : List Char} (hnh : '-' ∉ v)
    (hd : v.takeWhile isDigitCh ≠ []) (now : Nat) :
    ensureTsPre now (some v) = v.takeWhile isDigitCh := by
  rw [ensureTsPre]
  have hdigit : ∃ c t, v = c :: t ∧ isDigitCh c = true := by
    cases hv : v with
    | nil => rw [hv] at hd; exact absurd rfl hd
    | cons c t =>
      refine ⟨c, t, rfl, ?_⟩
      rw [hv, List.takeWhile_cons] at hd
      by_cases hc : isDigitCh c = true
      · exact hc
      · rw [if_neg hc] at hd; exact absurd rfl hd
  obtain ⟨c, t, hv, hc⟩ := hdigit
  have htrim : jsTrim v ≠ [] := by
    intro ht
    have := jsTrim_eq_nil ht c (by rw [hv]; exact List.mem_cons_self _ _)
    rw [(isDigitCh_facts hc).2.2.2.1] at this
    exact absurd this (by decide)
  rw [if_neg htrim]
  have htw : v.takeWhile (fun c => c ≠ '-') = v := by
    apply takeWhile_all
    intro x hx
    simp only [ne_eq, decide_not, Bool.not_eq_true', decide_eq_false_iff_not]
    intro hxe; rw [hxe] at hx; exact hnh hx
  rw [htw, if_neg (by omega), if_neg hd]

/-! ## Claims C7 and C9 -/

/-- C7: every derived stored filename is
`<prefix>-<sanitizedMerchant>-<sanitizedMonth>-<sanitizedYear><ext>`, the
extension taken from the current stored name with the relocated path as
fallback (`deriveExt`), and the prefix being the part of the current
stored name before its first `-` (when non-empty), else its leading run
of digits (when non-empty), else the freshly minted timestamp. -/
theorem C7_derived_filename_shape :
    ∀ (nrm : List Char → List Char) (now : Nat) (cur : Option (List Char))
      (m mo : Option (List Char)) (y : Option Nat) (fp : Option (List Char)),
      deriveStoredFileName nrm now cur m mo y fp =
          ensureTsPre now cur ++ '-' :: (deriveBase nrm m mo y ++ deriveExt cur fp) ∧
        (∀ v a b, cur = some v → v = a ++ '-' :: b → a ≠ [] → '-' ∉ a →
          ensureTsPre now cur = a) ∧
        (∀ v, cur = some v → '-' ∉ v → v.takeWhile isDigitCh ≠ [] →
          ensureTsPre now cur = v.takeWhile isDigitCh) ∧
        (cur = none → ensureTsPre now cur = natChars now) := by
  intro nrm now cur m mo y fp
  refine ⟨derive_shape nrm now cur m mo y fp, ?_, ?_, ?_⟩
  · intro v a b hcv hv ha hna
    rw [hcv, hv]
    exact ensureTsPre_hyphen ha hna now
  · intro v hcv hnh hd
    rw [hcv]
    exact ensureTsPre_nohyphen_digits hnh hd now
  · intro h; rw [h]; rfl

theorem sanitize_all_sanOut (nrm : List Char → List Char)
    (v : Option (List Char)) {fb : List Char}
    (hfb : ∀ c ∈ fb, sanOutChar c = true) :
    ∀ c ∈ sanitizeNameSegment nrm v fb, sanOutChar c = true := by
  rcases sanitize_out nrm v fb with h | ⟨⟨hall, -, -, -⟩, -, -⟩
  · rw [h]; exact hfb
  · exact hall

theorem deriveBase_all_sanOut (nrm : List Char → List Char)
    (m mo : Option (List Char)) (y : Option Nat) :
    ∀ c ∈ deriveBase nrm m mo y, sanOutChar c = true := by
  intro c hc
  rw [deriveBase.eq_def] at hc
  rcases List.mem_append.mp hc with h | h
  · exact sanitize_all_sanOut nrm m (by decide) c h
  · rcases List.mem_cons.mp h with rfl | h
    · decide
    · rcases List.mem_append.mp h with h | h
      · exact sanitize_all_sanOut nrm mo (by decide) c h
      · rcases List.mem_cons.mp h with rfl | h
        · decide
        · exact sanitize_all_sanOut nrm _ (by decide) c h

theorem deriveExt_shape (cur fp : Option (List Char)) :
    deriveExt cur fp = [] ∨
      ∃ e, deriveExt cur fp = '.' :: e ∧ '.' ∉ e ∧ '/' ∉ e := by
  rw [deriveExt, orNE]
  by_cases h : extname (cur.getD []) = []
  · rw [if_pos h]; exact extname_shape _
  · rw [if_neg h]; exact extname_shape _

/-- C9: `deriveStoredFileName` is idempotent for fixed metadata: applied to
a name it itself produced — whose extracted timestamp prefix is a
(non-empty) digit run, and with the second call's fallback path carrying
no extension when the produced name carries none — it returns that name
unchanged. -/
theorem C9_derive_idempotent :
    ∀ (nrm : List Char → List Char) (now1 now2 : Nat) (cur : Option (List Char))
      (m mo : Option (List Char)) (y : Option Nat) (fp1 fp2 : Option (List Char)),
      (∀ c ∈ ensureTsPre now1 cur, isDigitCh c = true) →
      (deriveExt cur fp1 = [] → extname (fp2.getD []) = []) →
      deriveStoredFileName nrm now2
          (some (deriveStoredFileName nrm now1 cur m mo y fp1)) m mo y fp2 =
        deriveStoredFileName nrm now1 cur m mo y fp1 := by
  intro nrm now1 now2 cur m mo y fp1 fp2 hdig hfp
  have hshape1 := derive_shape nrm now1 cur m mo y fp1
  rw [hshape1]
  rw [derive_shape]
  have hpne : ensureTsPre now1 cur ≠ [] := ensureTsPre_ne_nil now1 cur
  have hpfacts : ∀ c ∈ ensureTsPre now1 cur, c ≠ '.' ∧ c ≠ '/' ∧ c ≠ '-' := by
    intro c hc
    obtain ⟨f1, f2, f3, -, -⟩ := isDigitCh_facts (hdig c hc)
    exact ⟨f2, f3, f1⟩
  have hbfacts : ∀ c ∈ deriveBase nrm m mo y, c ≠ '.' ∧ c ≠ '/' := by
    intro c hc
    exact sanOutChar_facts (deriveBase_all_sanOut nrm m mo y c hc)
  have hA : ensureTsPre now2
      (some (ensureTsPre now1 cur ++ '-' ::
        (deriveBase nrm m mo y ++ deriveExt cur fp1))) = ensureTsPre now1 cur :=
    ensureTsPre_hyphen hpne (fun hc => (hpfacts '-' hc).2.2 rfl) now2
  have hB : deriveExt
      (some (ensureTsPre now1 cur ++ '-' ::
        (deriveBase nrm m mo y ++ deriveExt cur fp1))) fp2 = deriveExt cur fp1 := by
    rw [deriveExt, Option.getD_some]
    rcases deriveExt_shape cur fp1 with hnil | ⟨e, hee, hedot, heslash⟩
    · rw [hnil, List.append_nil]
      have hnodot : '.' ∉ ensureTsPre now1 cur ++ '-' :: deriveBase nrm m mo y := by
        intro hc
        rcases List.mem_append.mp hc with h | h
        · exact (hpfacts '.' h).1 rfl
        · rcases List.mem_cons.mp h with he | h
          · exact absurd he.symm (by decide)
          · exact (hbfacts '.' h).1 rfl
      have hnoslash : '/' ∉ ensureTsPre now1 cur ++ '-' :: deriveBase nrm m mo y := by
        intro hc
        rcases List.mem_append.mp hc with h | h
        · exact (hpfacts '/' h).2.1 rfl
        · rcases List.mem_cons.mp h with he | h
          · exact absurd he.symm (by decide)
          · exact (hbfacts '/' h).2 rfl
      rw [extname_noslash hnoslash, extnameCore_nodot hnodot, orNE,
        if_pos rfl, hfp hnil]
    · rw [hee]
      have hassoc : ensureTsPre now1 cur ++ '-' ::
          (deriveBase nrm m mo y ++ '.' :: e) =
          (ensureTsPre now1 cur ++ '-' :: deriveBase nrm m mo y) ++ '.' :: e := by
        simp
      rw [hassoc]
      have hnoslash : '/' ∉ (ensureTsPre now1 cur ++ '-' :: deriveBase nrm m mo y)
          ++ '.' :: e := by
        intro hc
        rcases List.mem_append.mp hc with h | h
        · rcases List.mem_append.mp h with h | h
          · exact (hpfacts '/' h).2.1 rfl
          · rcases List.mem_cons.mp h with he | h
            · exact absurd he.symm (by decide)
            · exact (hbfacts '/' h).2 rfl
        · rcases List.mem_cons.mp h with he | h
          · exact absurd he.symm (by decide)
          · exact heslash h
      rw [extname_noslash hnoslash,
        extnameCore_concrete (append_cons_ne_nil _ _ _)
          ⟨'-', List.mem_append_right _ (List.mem_cons_self _ _), by decide⟩ hedot]
      rw [orNE, if_neg (by simp)]
  rw [hA, hB]

/-- C9 (witness): relocating `1712-old.pdf` to Acme/March/2024 and
re-deriving with the same metadata keeps `1712-Acme-March-2024.pdf`. -/
theorem C9_derive_idempotent_witness :
    deriveStoredFileName idChars 2086
        (some (deriveStoredFileName idChars 1712 (some (("1712-old.pdf").data))
          (some (("Acme").data)) (some (("March").data)) (some 2024)
          (some (("up/2024/Acme/March/1712-old.pdf").data))))
        (some (("Acme").data)) (some (("March").data)) (some 2024)
        (some (("up/2024/Acme/March/1712-Acme-March-2024.pdf").data)) =
      deriveStoredFileName idChars 1712 (some (("1712-old.pdf").data))
        (some (("Acme").data)) (some (("March").data)) (some 2024)
        (some (("up/2024/Acme/March/1712-old.pdf").data)) :=
  C9_derive_idempotent idChars 1712 2086 (some (("1712-old.pdf").data))
    (some (("Acme").data)) (some (("March").data)) (some 2024)
    (some (("up/2024/Acme/March/1712-old.pdf").data))
    (some (("up/2024/Acme/March/1712-Acme-March-2024.pdf").data))
    (by decide) (by decide)

/-! ## Claims C3 and C10 -/

theorem mem_rmDir {fs : Fs} {p d : FsPath} (h : d ≠ p) :
    d ∈ (rmDir fs p).dirs ↔ d ∈ fs.dirs := by
  rw [rmDir]
  simp only [List.mem_filter, Bool.not_eq_true', decide_eq_false_iff_not]
  exact ⟨fun hh => hh.1, fun hh => ⟨hh, h⟩⟩

theorem pruneGo_removed :
    ∀ (fuel : Nat) (fs : Fs) (root cur d : FsPath),
      d ∈ fs.dirs → d ∉ (pruneGo fuel fs root cur).dirs →
      root <+: d ∧ d ≠ root ∧ d <+: cur := by
  intro fuel
  induction fuel with
  | zero => intro fs root cur d hin hout; exact absurd hin hout
  | succ fuel ih =>
    intro fs root cur d hin hout
    rw [pruneGo] at hout
    by_cases h1 : cur = root
    · rw [if_pos h1] at hout; exact absurd hin hout
    · rw [if_neg h1] at hout
      by_cases h2 : ¬ root.isPrefixOf cur = true
      · rw [if_pos h2] at hout; exact absurd hin hout
      · rw [if_neg h2] at hout
        rw [Bool.not_eq_true, Bool.not_eq_false] at h2
        by_cases h3 : cur ∉ fs.dirs
        · rw [if_pos h3] at hout; exact absurd hin hout
        · rw [if_neg h3] at hout
          by_cases h4 : dirEntries fs cur ≠ []
          · rw [if_pos h4] at hout; exact absurd hin hout
          · rw [if_neg h4] at hout
            by_cases hd : d = cur
            · subst hd
              exact ⟨List.isPrefixOf_iff_prefix.mp h2, h1, List.prefix_refl d⟩
            · have hin2 : d ∈ (rmDir fs cur).dirs := (mem_rmDir hd).mpr hin
              obtain ⟨c1, c2, c3⟩ := ih (rmDir fs cur) root cur.dropLast d hin2 hout
              exact ⟨c1, c2, c3.trans (List.dropLast_prefix cur)⟩

/-- C3: directory pruning after a delete removes only directories that lie
strictly below the storage root and on the ancestor chain of the deleted
file's directory — so it never removes or climbs above the root, and never
touches a sibling; concretely, deleting the only document of
`2024/Acme/March` removes `March`, `Acme` and `2024` but keeps the root,
while with a sibling `2024/Acme/April` still holding a document only
`March` is removed and the sibling document survives. -/
theorem C3_prune_bounded :
    (∀ (fs : Fs) (root start d : FsPath),
      d ∈ fs.dirs → d ∉ (removeEmptyDirectoriesUpwards fs root start).dirs →
      root <+: d ∧ d ≠ root ∧ d <+: start) ∧
    ((deleteDocument [] [("up").data] [(5, docMarch)] fsMarchOnly 5).1.2).dirs =
        [[("up").data]] ∧
    (deleteDocument [] [("up").data] [(5, docMarch)] fsMarchOnly 5).2 =
        DelResp.deleted 5 ∧
    ((deleteDocument [] [("up").data] [(5, docMarch)] fsMarchApril 5).1.2).dirs =
        [[("up").data], [("up").data, seg2024], [("up").data, seg2024, segAcme],
          [("up").data, seg2024, segAcme, segApril]] ∧
    lookupF (deleteDocument [] [("up").data] [(5, docMarch)] fsMarchApril 5).1.2
        docAprilFile = some (FData.blob 8) := by
  refine ⟨?_, by decide, by decide, by decide, by decide⟩
  intro fs root start d hin hout
  exact pruneGo_removed (start.length + 1) fs root start d hin hout

theorem find?_filter_self (db : List (Nat × DocRec)) (id : Nat) :
    (db.filter (fun x => !decide (x.1 = id))).find? (fun x => decide (x.1 = id)) =
      none := by
  rw [List.find?_eq_none]
  intro x hx
  rw [List.mem_filter] at hx
  simpa using hx.2

/-- C10: when the record exists, DELETE reports success and removes the
record even if the backing file is already gone (ENOENT is
nothing-to-remove: the filesystem is returned untouched, pruning skipped)
or if the unlink is refused (the cleanup failure is only logged and the
filesystem untouched). -/
theorem C10_delete_missing_file_ok :
    ∀ (dirn ud : FsPath) (db : List (Nat × DocRec)) (fs : Fs) (id : Nat)
      (e : Nat × DocRec),
      db.find? (fun x => decide (x.1 = id)) = some e →
      (deleteDocument dirn ud db fs id).2 = DelResp.deleted id ∧
        (deleteDocument dirn ud db fs id).1.1.find?
          (fun x => decide (x.1 = id)) = none ∧
        (lookupF fs (resolvePath dirn e.2.storagePath) = none →
          (deleteDocument dirn ud db fs id).1.2 = fs) ∧
        (resolvePath dirn e.2.storagePath ∈ fs.locked →
          (deleteDocument dirn ud db fs id).1.2 = fs) := by
  intro dirn ud db fs id e hfind
  have hcase :
      removeFileIfExists fs (resolvePath dirn e.2.storagePath) =
          (fs, .ok false) ∨
        removeFileIfExists fs (resolvePath dirn e.2.storagePath) =
          (fs, .error .unlinkDenied) ∨
        removeFileIfExists fs (resolvePath dirn e.2.storagePath) =
          (rmF fs (resolvePath dirn e.2.storagePath), .ok true) := by
    rw [removeFileIfExists.eq_def]
    cases hl : lookupF fs (resolvePath dirn e.2.storagePath) with
    | none => exact Or.inl rfl
    | some c =>
      by_cases hlock : resolvePath dirn e.2.storagePath ∈ fs.locked
      · rw [if_pos hlock]; exact Or.inr (Or.inl rfl)
      · rw [if_neg hlock]; exact Or.inr (Or.inr rfl)
  rw [deleteDocument.eq_def, hfind]
  dsimp only
  refine ⟨?_, ?_, ?_, ?_⟩
  · rcases hcase with h | h | h <;> rw [h]
  · rcases hcase with h | h | h <;> rw [h] <;> exact find?_filter_self db id
  · intro hnone
    have h : removeFileIfExists fs (resolvePath dirn e.2.storagePath) =
        (fs, .ok false) := by
      rw [removeFileIfExists.eq_def, hnone]
    rw [h]
  · intro hlock
    have h : removeFileIfExists fs (resolvePath dirn e.2.storagePath) =
          (fs, .ok false) ∨
        removeFileIfExists fs (resolvePath dirn e.2.storagePath) =
          (fs, .error .unlinkDenied) := by
      rw [removeFileIfExists.eq_def]
      cases hl : lookupF fs (resolvePath dirn e.2.storagePath) with
      | none => exact Or.inl rfl
      | some c => rw [if_pos hlock]; exact Or.inr rfl
    rcases h with h | h <;> rw [h]

/-- C10 (witness): deleting the March document when its file is already
absent on disk. -/
theorem C10_delete_missing_file_witness :
    (deleteDocument [] [("up").data] [(5, docMarch)] (rmF fsMarchOnly
        docMarch.storagePath) 5).2 = DelResp.deleted 5 ∧
      (deleteDocument [] [("up").data] [(5, docMarch)] (rmF fsMarchOnly
        docMarch.storagePath) 5).1.2 = rmF fsMarchOnly docMarch.storagePath := by
  have h := C10_delete_missing_file_ok [] [("up").data] [(5, docMarch)]
    (rmF fsMarchOnly docMarch.storagePath) 5 (5, docMarch) (by decide)
  exact ⟨h.1, h.2.2.1 (by decide)⟩

/-! ## Claim C1 -/

theorem dirs_rmF (fs : Fs) (p : FsPath) : (rmF fs p).dirs = fs.dirs := rfl

theorem jsTrim_id {l : List Char} (h : ∀ c ∈ l, isJsWs c = false) : jsTrim l = l := by
  rw [jsTrim, dropWhile_all_neg h, dropWhile_all_neg, List.reverse_reverse]
  intro c hc
  exact h c (List.mem_reverse.mp hc)

/-- `String(year)` stripped to digits and trimmed is just `String(year)`. -/
theorem yearSeg_id (n : Nat) : jsTrim ((natChars n).filter isDigitCh) = natChars n := by
  rw [List.filter_eq_self.mpr (natChars_all_digit n)]
  exact jsTrim_id (fun c hc => (isDigitCh_facts (natChars_all_digit n c hc)).2.2.2.1)

theorem mem_mkdirp_self (fs : Fs) {p : FsPath} (h : p ≠ []) :
    p ∈ (mkdirp fs p).dirs := by
  rw [mkdirp]
  apply List.mem_append_left
  rw [List.mem_filter]
  constructor
  · rw [List.mem_inits]
  · simpa using h

theorem applyFieldEdits_storedName (d : DocRec) (b : PatchBody) :
    (applyFieldEdits d b).storedName = d.storedName := by
  rw [applyFieldEdits]
  cases b.notes <;> cases b.tags <;> cases b.year <;> cases b.merchant <;>
    cases b.month <;> rfl

/-- C1: with year/merchant/month actually changing and the backing file
present, a persistence failure after the relocation leaves the caller with
the original save error, the stored record untouched, and — when the
restoration itself does not fail — the file back at its original path
(its directory recreated) with no file anywhere one did not exist
before. -/
theorem C1_patch_save_rollback :
    ∀ (nrm : List Char → List Char) (dirn ud : FsPath) (now : Nat)
      (restoreOk : Bool) (st : SrvState) (b : PatchBody) (c : FData),
      patchShouldRelocate st.store b = true →
      lookupF st.fs (resolvePath dirn st.store.storagePath) = some c →
      (patchDocument nrm dirn ud now false restoreOk st b).2 =
          Except.error CoreErr.saveFailed ∧
        (patchDocument nrm dirn ud now false restoreOk st b).1.store = st.store ∧
        (restoreOk = true →
          lookupF (patchDocument nrm dirn ud now false restoreOk st b).1.fs
              (resolvePath dirn st.store.storagePath) = some c ∧
            ((resolvePath dirn st.store.storagePath).dropLast ≠ [] →
              (resolvePath dirn st.store.storagePath).dropLast ∈
                (patchDocument nrm dirn ud now false restoreOk st b).1.fs.dirs) ∧
            ∀ q, lookupF st.fs q = none →
              lookupF (patchDocument nrm dirn ud now false restoreOk st b).1.fs q =
                none) := by
  intro nrm dirn ud now restoreOk st b c hrel hlook
  set O := resolvePath dirn st.store.storagePath with hO
  set ny := b.year.getD st.store.year with hny
  set nm := nextMerchantOf st.store b with hnm
  set nmo := b.month.getD st.store.month with hnmo
  set T := ud ++ [jsTrim ((natChars ny).filter isDigitCh),
    sanitizeDirectoryName nrm (some nm) (("merchant").data),
    sanitizeDirectoryName nrm (some nmo) (("month").data)] with hT
  set D := T ++ [lastSeg O] with hD
  have hysne : jsTrim ((natChars ny).filter isDigitCh) ≠ [] := by
    rw [yearSeg_id]; exact natChars_ne_nil ny
  -- step 1: the hierarchy move
  have hmove : ∃ fsA,
      moveDocumentToHierarchy nrm ud st.fs O ny (some nm) (some nmo) =
          (fsA, .ok D) ∧
        lookupF fsA D = some c ∧
        (∀ q, lookupF st.fs q = none → q ≠ D → lookupF fsA q = none) ∧
        fsA.dirs = (mkdirp st.fs T).dirs ∧ fsA.locked = st.fs.locked := by
    by_cases hdo : D = O
    · refine ⟨mkdirp st.fs T, ?_, ?_, ?_, rfl, rfl⟩
      · rw [moveDocumentToHierarchy]
        dsimp only
        rw [if_neg hysne, ← hT, ← hD, if_pos hdo]
      · rw [lookupF_mkdirp, hdo]; exact hlook
      · intro q hq hqD
        rw [lookupF_mkdirp]; exact hq
    · refine ⟨addF (rmF (mkdirp st.fs T) O) D c, ?_, lookupF_addF_self _ _ _, ?_, rfl, rfl⟩
      · rw [moveDocumentToHierarchy]
        dsimp only
        rw [if_neg hysne, ← hT, ← hD, if_neg hdo, renameF, lookupF_mkdirp, hlook]
      · intro q hq hqD
        rw [lookupF_addF_ne _ hqD, lookupF_rmF_ne _ hqD]
        by_cases hqO : q = O
        · rw [hqO]; exact lookupF_rmF_self _ _
        · rw [lookupF_rmF_ne _ hqO, lookupF_mkdirp]; exact hq
  obtain ⟨fsA, hmoveEq, hA1, hA2, hA3, hA4⟩ := hmove
  -- step 2: renaming to the derived stored name
  set nextStored := deriveStoredFileName nrm now
    (some (applyFieldEdits st.store b).storedName) (some nm) (some nmo) (some ny)
    (some (joinPath D)) with hns
  set W := D.dropLast ++ [nextStored] with hW
  have hstep : ∃ doc2 fsB F,
      patchDocument nrm dirn ud now false restoreOk st b =
          patchSave false restoreOk st.store doc2 fsB (some (O, F)) ∧
        lookupF fsB F = some c ∧
        (∀ q, lookupF st.fs q = none → q ≠ F → lookupF fsB q = none) ∧
        fsB.dirs = (mkdirp st.fs T).dirs ∧ fsB.locked = st.fs.locked := by
    rw [patchDocument]
    dsimp only
    rw [← hO, ← hny, ← hnm, ← hnmo, if_pos hrel, hmoveEq]
    dsimp only
    rw [← hns, ← hW]
    by_cases hwd : W = D
    · rw [if_pos hwd]
      refine ⟨_, fsA, D, rfl, hA1, hA2, hA3, hA4⟩
    · rw [if_neg hwd]
      have hren : renameF fsA D W = some (addF (rmF fsA D) W c) := by
        rw [renameF, hA1]
      rw [hren]
      refine ⟨_, addF (rmF fsA D) W c, W, rfl, lookupF_addF_self _ _ _, ?_, hA3, hA4⟩
      intro q hq hqW
      rw [lookupF_addF_ne _ hqW, lookupF_rmF_ne _ hqW]
      by_cases hqD : q = D
      · rw [hqD]; exact lookupF_rmF_self _ _
      · rw [lookupF_rmF_ne _ hqD]; exact hA2 q hq hqD
  obtain ⟨doc2, fsB, F, heq, hB1, hB2, hB3, hB4⟩ := hstep
  rw [heq]
  -- step 3: the failing save and its rollback
  rw [patchSave, if_neg (by simp)]
  dsimp only
  cases restoreOk with
  | false =>
    rw [if_neg (by simp)]
    refine ⟨rfl, rfl, ?_⟩
    intro h; exact absurd h (by decide)
  | true =>
    have hrenB : renameF (mkdirp fsB O.dropLast) F O =
        some (addF (rmF (mkdirp fsB O.dropLast) F) O c) := by
      rw [renameF, lookupF_mkdirp, hB1]
    rw [if_pos rfl, hrenB]
    dsimp only
    refine ⟨rfl, rfl, ?_⟩
    intro _
    refine ⟨lookupF_addF_self _ _ _, ?_, ?_⟩
    · intro hnd
      rw [dirs_addF, dirs_rmF, mkdirp]
      exact List.mem_append_left _ (by
        rw [List.mem_filter]
        exact ⟨(List.mem_inits _ _).mpr (List.prefix_refl _), by simpa using hnd⟩)
    · intro q hq
      by_cases hqO : q = O
      · rw [hqO] at hq
        rw [hlook] at hq
        exact absurd hq (by simp)
      · rw [lookupF_addF_ne _ hqO, lookupF_rmF_ne _ hqO]
        by_cases hqF : q = F
        · rw [hqF]; exact lookupF_rmF_self _ _
        · rw [lookupF_rmF_ne _ hqF, lookupF_mkdirp]
          exact hB2 q hq hqF

/-- C1 (witness): editing the scenario document's year from 2023 to 2024
with the save failing: the caller sees the save error, the stored record
is untouched, and the file is back at its 2023 path. -/
theorem C1_patch_save_rollback_witness :
    (patchDocument idChars backDir upDir 1712 false true
        { store := doc2023, fs := fs2023 } bodyYear2024).2 =
        Except.error CoreErr.saveFailed ∧
      (patchDocument idChars backDir upDir 1712 false true
        { store := doc2023, fs := fs2023 } bodyYear2024).1.store = doc2023 ∧
      lookupF (patchDocument idChars backDir upDir 1712 false true
          { store := doc2023, fs := fs2023 } bodyYear2024).1.fs doc2023Path =
        some (FData.blob 7) := by
  have h := C1_patch_save_rollback idChars backDir upDir 1712 true
    { store := doc2023, fs := fs2023 } bodyYear2024 (FData.blob 7)
    (by decide) (by decide)
  exact ⟨h.1, h.2.1, (h.2.2 rfl).1⟩

/-! ## Path resolution round-trips (for claim C2) -/

theorem resolvePath_cons (b : FsPath) (s : Seg) (t : FsPath) :
    resolvePath b (s :: t) =
      resolvePath (if s = ddSeg then b.dropLast else if s = dotSeg then b else b ++ [s]) t :=
  rfl

theorem resolvePath_nil (b : FsPath) : resolvePath b [] = b := rfl

theorem resolvePath_good_append :
    ∀ {l : FsPath} (b : FsPath), (∀ s ∈ l, GoodSeg s) → resolvePath b l = b ++ l := by
  intro l
  induction l with
  | nil => intro b _; rw [resolvePath_nil, List.append_nil]
  | cons s t ih =>
    intro b h
    obtain ⟨-, h2, h3⟩ := h s (List.mem_cons_self s t)
    rw [resolvePath_cons, if_neg h2, if_neg h3,
      ih (b ++ [s]) (fun x hx => h x (List.mem_cons_of_mem s hx)), List.append_assoc,
      List.singleton_append]

theorem resolvePath_replicate_dd :
    ∀ (k : Nat) (b : FsPath), resolvePath b (List.replicate k ddSeg) =
      b.take (b.length - k) := by
  intro k
  induction k with
  | zero => intro b; rw [List.replicate, resolvePath_nil, Nat.sub_zero, List.take_length]
  | succ k ih =>
    intro b
    rw [List.replicate, resolvePath_cons, if_pos rfl, ih, List.dropLast_eq_take,
      List.length_take, List.take_take, Nat.min_eq_left (Nat.sub_le _ _),
      Nat.min_eq_left (Nat.sub_le _ _)]
    congr 1
    omega

theorem resolvePath_append (b : FsPath) (x y : FsPath) :
    resolvePath b (x ++ y) = resolvePath (resolvePath b x) y := by
  rw [resolvePath, resolvePath, resolvePath, List.foldl_append]

/-- `path.relative` as common-prefix stripping: some common count `c`
bounds both paths, the first `c` segments agree, and the result is one
`..` per remaining source segment followed by the remaining target
segments. -/
theorem relativePath_char :
    ∀ (f t : FsPath), ∃ c, c ≤ f.length ∧ c ≤ t.length ∧ f.take c = t.take c ∧
      relativePath f t = List.replicate (f.length - c) ddSeg ++ t.drop c := by
  intro f
  induction f with
  | nil =>
    intro t
    exact ⟨0, Nat.zero_le _, Nat.zero_le _, rfl, by rw [relativePath]; rfl⟩
  | cons a f ih =>
    intro t
    cases t with
    | nil =>
      refine ⟨0, Nat.zero_le _, Nat.zero_le _, rfl, ?_⟩
      rw [relativePath, List.drop_nil, List.append_nil, Nat.sub_zero]
    | cons b t =>
      by_cases hab : a = b
      · obtain ⟨c, hc1, hc2, hc3, hc4⟩ := ih t
        refine ⟨c + 1, by simpa using hc1, by simpa using hc2, ?_, ?_⟩
        · rw [List.take_succ_cons, List.take_succ_cons, hc3, hab]
        · rw [relativePath, if_pos hab, hc4, List.drop_succ_cons, List.length_cons]
          congr 2
          omega
      · refine ⟨0, Nat.zero_le _, Nat.zero_le _, rfl, ?_⟩
        rw [relativePath, if_neg hab, List.drop_zero, Nat.sub_zero]

/-- Resolving `path.relative(f, t)` against `f` recovers `t` whenever the
target's segments are plain names. -/
theorem resolve_relative (f t : FsPath) (ht : ∀ s ∈ t, GoodSeg s) :
    resolvePath f (relativePath f t) = t := by
  obtain ⟨c, hc1, hc2, hc3, hc4⟩ := relativePath_char f t
  rw [hc4, resolvePath_append, resolvePath_replicate_dd,
    resolvePath_good_append _ (fun s hs => ht s (List.mem_of_mem_drop hs))]
  have : f.length - (f.length - c) = c := by omega
  rw [this, hc3, List.take_append_drop]

/-! ## Segment well-formedness (for claim C2) -/

theorem goodSeg_of_sanOut {l : List Char} (hall : ∀ c ∈ l, sanOutChar c = true)
    (hne : l ≠ []) : GoodSeg l := by
  refine ⟨hne, ?_, ?_⟩
  · intro h
    rw [h] at hall
    have := hall '.' (List.mem_cons_self _ _)
    exact absurd this (by decide)
  · intro h
    rw [h] at hall
    have := hall '.' (List.mem_cons_self _ _)
    exact absurd this (by decide)

theorem goodSeg_yearSeg (y : Nat) : GoodSeg (jsTrim ((natChars y).filter isDigitCh)) := by
  rw [yearSeg_id]
  exact goodSeg_of_sanOut
    (fun c hc => (isDigitCh_facts (natChars_all_digit y c hc)).2.2.2.2)
    (natChars_ne_nil y)

theorem goodSeg_sanitize {nrm : List Char → List Char} {v : Option (List Char)}
    {fb : List Char} (hfb1 : ∀ c ∈ fb, sanOutChar c = true) (hfb2 : fb ≠ []) :
    GoodSeg (sanitizeNameSegment nrm v fb) := by
  rcases sanitize_out nrm v fb with h | ⟨⟨hall, -, -, -⟩, hne, -⟩
  · rw [h]; exact goodSeg_of_sanOut hfb1 hfb2
  · exact goodSeg_of_sanOut hall hne

theorem goodSeg_prefix_form (p rest : List Char) : GoodSeg (p ++ '-' :: rest) := by
  refine ⟨append_cons_ne_nil _ _ _, ?_, ?_⟩
  · intro h
    rw [ddSeg] at h
    match p, h with
    | [], h =>
      rw [List.nil_append, List.cons.injEq] at h
      exact absurd h.1 (by decide)
    | [x], h =>
      rw [List.singleton_append, List.cons.injEq, List.cons.injEq] at h
      exact absurd h.2.1 (by decide)
    | x :: y :: p2, h =>
      have := congrArg List.length h
      simp at this
  · intro h
    rw [dotSeg] at h
    match p, h with
    | [], h =>
      rw [List.nil_append, List.cons.injEq] at h
      exact absurd h.1 (by decide)
    | x :: p2, h =>
      have := congrArg List.length h
      simp at this

theorem goodSeg_derive (nrm : List Char → List Char) (now : Nat)
    (cur : Option (List Char)) (m mo : Option (List Char)) (y : Option Nat)
    (fp : Option (List Char)) : GoodSeg (deriveStoredFileName nrm now cur m mo y fp) := by
  rw [derive_shape]
  exact goodSeg_prefix_form _ _

/-- The PATCH handler's behaviour on a successful save after a relocation:
it commits the mutated record whose `storagePath` is the relative form of
`<target dir>/<derived stored name>`. -/
theorem patch_reloc_commit :
    ∀ (nrm : List Char → List Char) (dirn ud : FsPath) (now : Nat)
      (restoreOk : Bool) (st : SrvState) (b : PatchBody) (c : FData),
      patchShouldRelocate st.store b = true →
      lookupF st.fs (resolvePath dirn st.store.storagePath) = some c →
      ∃ doc2 fsB,
        patchDocument nrm dirn ud now true restoreOk st b =
            ({ store := doc2, fs := fsB }, .ok doc2) ∧
          doc2.storagePath =
            relativePath dirn
              (ud ++ [jsTrim ((natChars (b.year.getD st.store.year)).filter isDigitCh),
                sanitizeDirectoryName nrm (some (nextMerchantOf st.store b))
                  (("merchant").data),
                sanitizeDirectoryName nrm (some (b.month.getD st.store.month))
                  (("month").data)] ++ [doc2.storedName]) ∧
          GoodSeg doc2.storedName := by
  intro nrm dirn ud now restoreOk st b c hrel hlook
  set O := resolvePath dirn st.store.storagePath with hO
  set ny := b.year.getD st.store.year with hny
  set nm := nextMerchantOf st.store b with hnm
  set nmo := b.month.getD st.store.month with hnmo
  set T := ud ++ [jsTrim ((natChars ny).filter isDigitCh),
    sanitizeDirectoryName nrm (some nm) (("merchant").data),
    sanitizeDirectoryName nrm (some nmo) (("month").data)] with hT
  set D := T ++ [lastSeg O] with hD
  have hysne : jsTrim ((natChars ny).filter isDigitCh) ≠ [] := by
    rw [yearSeg_id]; exact natChars_ne_nil ny
  have hmove : ∃ fsA,
      moveDocumentToHierarchy nrm ud st.fs O ny (some nm) (some nmo) =
          (fsA, .ok D) ∧ lookupF fsA D = some c := by
    by_cases hdo : D = O
    · refine ⟨mkdirp st.fs T, ?_, ?_⟩
      · rw [moveDocumentToHierarchy]
        dsimp only
        rw [if_neg hysne, ← hT, ← hD, if_pos hdo]
      · rw [lookupF_mkdirp, hdo]; exact hlook
    · refine ⟨addF (rmF (mkdirp st.fs T) O) D c, ?_, lookupF_addF_self _ _ _⟩
      rw [moveDocumentToHierarchy]
      dsimp only
      rw [if_neg hysne, ← hT, ← hD, if_neg hdo, renameF, lookupF_mkdirp, hlook]
  obtain ⟨fsA, hmoveEq, hA1⟩ := hmove
  set nextStored := deriveStoredFileName nrm now
    (some (applyFieldEdits st.store b).storedName) (some nm) (some nmo) (some ny)
    (some (joinPath D)) with hns
  set W := D.dropLast ++ [nextStored] with hW
  have hWT : W = T ++ [nextStored] := by
    rw [hW, hD, List.dropLast_concat]
  have hgood : GoodSeg nextStored := by
    rw [hns]; exact goodSeg_derive nrm now _ _ _ _ _
  rw [patchDocument]
  dsimp only
  rw [← hO, ← hny, ← hnm, ← hnmo, if_pos hrel, hmoveEq]
  dsimp only
  rw [← hns, ← hW]
  by_cases hwd : W = D
  · rw [if_pos hwd]
    rw [patchSave.eq_def, if_pos rfl]
    refine ⟨_, fsA, rfl, ?_, hgood⟩
    show relativePath dirn D = relativePath dirn (T ++ [nextStored])
    rw [← hWT, hwd]
  · rw [if_neg hwd]
    have hren : renameF fsA D W = some (addF (rmF fsA D) W c) := by
      rw [renameF, hA1]
    rw [hren]
    dsimp only
    rw [patchSave.eq_def, if_pos rfl]
    refine ⟨_, addF (rmF fsA D) W c, rfl, ?_, hgood⟩
    show relativePath dirn W = relativePath dirn (T ++ [nextStored])
    rw [hWT]

/-! ## Claim C2 -/

/-- C2 (counterexample): under the default configuration
(`uploadsDir = __dirname/uploads`) the scenario upload (year 2024,
merchant "Acme Corp", month "March") stores
`uploads/2024/Acme-Corp/March/1712-scan.pdf` in `storagePath` — the path
is relative to the backend directory, not to the storage root, so it does
not equal `2024/Acme-Corp/March/1712-scan.pdf` as claimed. -/
theorem C2_storagePath_cex :
    okStoragePathStr (ingestPlaceFile idChars backDir upDir fsUpload pdfUpload 2024
        (("Acme Corp").data) (("March").data) [] none).2 =
        ("uploads/2024/Acme-Corp/March/1712-scan.pdf").data ∧
      okStoragePathStr (ingestPlaceFile idChars backDir upDir fsUpload pdfUpload 2024
        (("Acme Corp").data) (("March").data) [] none).2 ≠
        ("2024/Acme-Corp/March/1712-scan.pdf").data := by
  decide

/-- C2 (amended): after every successful ingestion, and after every
successful relocation, `storagePath` interpreted relative to the backend
directory (`__dirname`) resolves to a file in the directory
`<storage root>/<year>/<sanitized merchantName>/<sanitized month>`; in the
default configuration the scenario upload's `storagePath` equals
`uploads/2024/Acme-Corp/March/<ts>-...pdf`. -/
theorem C2_storagePath_amended :
    (∀ (nrm : List Char → List Char) (dirn ud : FsPath) (fs : Fs) (file : UpFile)
        (y : Nat) (m mo : List Char) (tags : List (List Char × Int))
        (notes : Option (List Char)) (d : DocRec) (c : FData),
      (∀ s ∈ ud, GoodSeg s) → GoodSeg (lastSeg file.path) →
      lookupF fs file.path = some c →
      (ingestPlaceFile nrm dirn ud fs file y m mo tags notes).2 = .ok d →
      resolvePath dirn d.storagePath =
        ud ++ [jsTrim ((natChars y).filter isDigitCh),
          sanitizeDirectoryName nrm (some m) (("merchant").data),
          sanitizeDirectoryName nrm (some mo) (("month").data), lastSeg file.path]) ∧
    (∀ (nrm : List Char → List Char) (dirn ud : FsPath) (now : Nat)
        (restoreOk : Bool) (st : SrvState) (b : PatchBody) (c : FData),
      (∀ s ∈ ud, GoodSeg s) →
      patchShouldRelocate st.store b = true →
      lookupF st.fs (resolvePath dirn st.store.storagePath) = some c →
      ∃ doc2 fsB,
        patchDocument nrm dirn ud now true restoreOk st b =
            ({ store := doc2, fs := fsB }, .ok doc2) ∧
          resolvePath dirn doc2.storagePath =
            patchTarget nrm ud st.store b ++ [doc2.storedName]) ∧
    okStoragePathStr (ingestPlaceFile idChars backDir upDir fsUpload pdfUpload 2024
        (("Acme Corp").data) (("March").data) [] none).2 =
      ("uploads/2024/Acme-Corp/March/1712-scan.pdf").data := by
  refine ⟨?_, ?_, by decide⟩
  · intro nrm dirn ud fs file y m mo tags notes d c hud hlast hlook hok
    set T := ud ++ [jsTrim ((natChars y).filter isDigitCh),
      sanitizeDirectoryName nrm (some m) (("merchant").data),
      sanitizeDirectoryName nrm (some mo) (("month").data)] with hT
    set D := T ++ [lastSeg file.path] with hD
    have hysne : jsTrim ((natChars y).filter isDigitCh) ≠ [] := by
      rw [yearSeg_id]; exact natChars_ne_nil y
    have hmove : ∃ fsA,
        moveDocumentToHierarchy nrm ud fs file.path y (some m) (some mo) =
          (fsA, .ok D) := by
      by_cases hdo : D = file.path
      · refine ⟨mkdirp fs T, ?_⟩
        rw [moveDocumentToHierarchy]
        dsimp only
        rw [if_neg hysne, ← hT, ← hD, if_pos hdo]
      · refine ⟨addF (rmF (mkdirp fs T) file.path) D c, ?_⟩
        rw [moveDocumentToHierarchy]
        dsimp only
        rw [if_neg hysne, ← hT, ← hD, if_neg hdo, renameF, lookupF_mkdirp, hlook]
    obtain ⟨fsA, hmoveEq⟩ := hmove
    rw [ingestPlaceFile.eq_def, hmoveEq] at hok
    dsimp only at hok
    rw [Except.ok.injEq] at hok
    subst hok
    have hsegs : ∀ s ∈ D, GoodSeg s := by
      intro s hs
      rw [hD, hT] at hs
      rcases List.mem_append.mp hs with hs | hs
      · rcases List.mem_append.mp hs with hs | hs
        · exact hud s hs
        · rcases List.mem_cons.mp hs with rfl | hs
          · exact goodSeg_yearSeg y
          · rcases List.mem_cons.mp hs with rfl | hs
            · exact goodSeg_sanitize (by decide) (by decide)
            · rcases List.mem_cons.mp hs with rfl | hs
              · exact goodSeg_sanitize (by decide) (by decide)
              · exact absurd hs (List.not_mem_nil s)
      · rcases List.mem_cons.mp hs with rfl | hs
        · exact hlast
        · exact absurd hs (List.not_mem_nil s)
    show resolvePath dirn (relativePath dirn D) = _
    rw [resolve_relative dirn D hsegs, hD, hT]
    simp
  · intro nrm dirn ud now restoreOk st b c hud hrel hlook
    obtain ⟨doc2, fsB, heq, hsp, hgoodn⟩ :=
      patch_reloc_commit nrm dirn ud now restoreOk st b c hrel hlook
    refine ⟨doc2, fsB, heq, ?_⟩
    rw [hsp, resolve_relative, patchTarget]
    intro s hs
    rcases List.mem_append.mp hs with hs | hs
    · rcases List.mem_append.mp hs with hs | hs
      · exact hud s hs
      · rcases List.mem_cons.mp hs with rfl | hs
        · exact goodSeg_yearSeg _
        · rcases List.mem_cons.mp hs with rfl | hs
          · exact goodSeg_sanitize (by decide) (by decide)
          · rcases List.mem_cons.mp hs with rfl | hs
            · exact goodSeg_sanitize (by decide) (by decide)
            · exact absurd hs (List.not_mem_nil s)
    · rcases List.mem_cons.mp hs with rfl | hs
      · exact hgoodn
      · exact absurd hs (List.not_mem_nil s)

end AMA
